import Mathlib

/-!
Verification of the `code-reviewer` repository core logic.

This file gives a shallow embedding, in Lean 4, of the pure core of the
repository (package `reviewer`, file `pkg/reviewer/reviewer.go` together
with the judge file): the markdown fence extraction
`extractCodeFromSuggestion`, the unified diff index `newDiffLines` /
`parseHunkStart` / `contains`, the comment construction and partition
performed by `PostReview` and `buildReviewComment`, and the judge
pipeline `JudgeSuggestions`.

Modelling conventions:
* Go strings are Lean `String`s; the Go standard library helpers
  (`strings.HasPrefix`, `strings.Contains`, `strings.TrimSpace`,
  `strings.TrimPrefix`, `strings.Split`, `strings.Join`) are modelled by
  small executable functions over `String.toList` or by the matching
  Lean core functions (`String.splitOn`, `String.intercalate`).
* The Go type `int` is 64 bits wide here; it is modelled as `Int`
  with an explicit two's complement wrap `wrap64` at every arithmetic
  operation that can overflow.
* The Go type `float64` carries only the judge scores, which are merely
  compared against a threshold and never computed with; scores are
  modelled as `Rat`.
* Go maps with `append` updates are modelled as total functions
  `String → List lineRange` with the empty list as default, which
  matches a missing key reading as `nil`.
* External collaborators (GitHub transport, the AI model, the judge
  backend) are modelled as oracle parameters at the function boundary.
-/

/-! # Definitions -/

/-! ## Go string helpers -/

/-- Prefix test on character lists. -/
def listIsPre : List Char → List Char → Bool
  | [], _ => true
  | _ :: _, [] => false
  | a :: as, b :: bs => a == b && listIsPre as bs

/-- Model of Go `strings.HasPrefix`. -/
def strStartsWith (s pre : String) : Bool :=
  listIsPre pre.toList s.toList

/-- Substring occurrence test on character lists. -/
def listIsInfix (pat : List Char) : List Char → Bool
  | [] => pat.isEmpty
  | c :: t => listIsPre pat (c :: t) || listIsInfix pat t

/-- Model of Go `strings.Contains`. -/
def strContains (s pat : String) : Bool :=
  listIsInfix pat.toList s.toList

/-- Model of Go `strings.TrimPrefix`: drops `pre` when it is a prefix,
otherwise returns the string unchanged. -/
def strTrimPre (s pre : String) : String :=
  if strStartsWith s pre then ⟨s.toList.drop pre.toList.length⟩ else s

/-- Model of Go `unicode.IsSpace`: the Unicode white space property
(as listed in the Go documentation for `unicode.White_Space`). -/
def goIsSpace (c : Char) : Bool :=
  (9 ≤ c.toNat && c.toNat ≤ 13) || c.toNat == 32 || c.toNat == 133 ||
  c.toNat == 160 || c.toNat == 5760 || (8192 ≤ c.toNat && c.toNat ≤ 8202) ||
  c.toNat == 8232 || c.toNat == 8233 || c.toNat == 8239 || c.toNat == 8287 ||
  c.toNat == 12288

/-- Model of Go `strings.TrimSpace`. -/
def goTrimSpace (s : String) : String :=
  ⟨((s.toList.dropWhile goIsSpace).reverse.dropWhile goIsSpace).reverse⟩

/-- Splitting a character list at every newline character. -/
def splitNlChars : List Char → List (List Char)
  | [] => [[]]
  | c :: t =>
    match splitNlChars t with
    | [] => [[]]
    | g :: gs => if c = '\n' then [] :: g :: gs else (c :: g) :: gs

/-- Model of Go `strings.Split(s, "\n")`. -/
def strSplitNl (s : String) : List String :=
  (splitNlChars s.toList).map (fun l => ⟨l⟩)

/-! ## extractCodeFromSuggestion (reviewer.go lines 338-380) -/

/-- Loop state of `extractCodeFromSuggestion`: the Go locals
`inCodeBlock`, `codeLines`, `currentBlock`. -/
structure ExtractState where
  inCodeBlock : Bool
  codeLines : List String
  currentBlock : List String
deriving Repr, DecidableEq

/-- One iteration of the `for _, line := range lines` loop of
`extractCodeFromSuggestion`. -/
def extractStep (st : ExtractState) (line : String) : ExtractState :=
  let trimmed := goTrimSpace line
  if strStartsWith trimmed "```" then
    if st.inCodeBlock then
      { inCodeBlock := false
        codeLines := if st.currentBlock.length > 0 then st.currentBlock else st.codeLines
        currentBlock := [] }
    else
      { inCodeBlock := true, codeLines := st.codeLines, currentBlock := [] }
  else
    if st.inCodeBlock then
      { st with currentBlock := st.currentBlock ++ [line] }
    else
      st

/-- Embedding of `extractCodeFromSuggestion` (reviewer.go 338-380). -/
def extractCodeFromSuggestion (suggestion : String) : String :=
  if !strContains suggestion "```" then suggestion
  else
    let lines := strSplitNl suggestion
    let st := lines.foldl extractStep ⟨false, [], []⟩
    if st.codeLines.length > 0 then String.intercalate "\n" st.codeLines
    else suggestion

/-! ### Specification-side description of fenced blocks

`specFencedBlocks lines inBlock cur` lists, in order, the line groups of
every completed open/close fence pair, scanning `lines` starting from
fence state `inBlock` with partial block `cur`.  An unterminated final
fence contributes nothing.  This is written from the specification's
words ("Collect the lines between each open/close pair"), to be compared
with the code's fold. -/

def specFencedBlocks : List String → Bool → List String → List (List String)
  | [], _, _ => []
  | l :: ls, inBlock, cur =>
    if strStartsWith (goTrimSpace l) "```" then
      if inBlock then cur :: specFencedBlocks ls false []
      else specFencedBlocks ls true []
    else
      if inBlock then specFencedBlocks ls true (cur ++ [l])
      else specFencedBlocks ls false cur

/-- The last completed fenced block that has at least one line. -/
def lastNonemptyBlock (bs : List (List String)) : Option (List String) :=
  (bs.filter (fun b => b ≠ [])).getLast?

/-! ## parseHunkStart (reviewer.go 488-506) -/

/-- Two's complement wrap of an integer to 64 bits, modelling Go `int`
arithmetic overflow. -/
def wrap64 (x : Int) : Int :=
  (x + 2 ^ 63) % 2 ^ 64 - 2 ^ 63

/-- The Go digit test from parseHunkStart: c >= '0' && c <= '9'. -/
def isGoDigit (c : Char) : Bool :=
  '0' ≤ c && c ≤ '9'

/-- The indexed loop of parseHunkStart over the bytes after the first
plus sign: digits are accumulated into start; the loop breaks at the
first non-digit whose index is positive, so a single non-digit right
after the plus is skipped. -/
def parseDigitsGo : List Char → Nat → Int → Int
  | [], _, start => start
  | c :: cs, i, start =>
    if isGoDigit c then
      parseDigitsGo cs (i + 1) (wrap64 (start * 10 + ((c.toNat : Int) - 48)))
    else if i > 0 then start
    else parseDigitsGo cs (i + 1) start

/-- Embedding of parseHunkStart (reviewer.go 488-506): find the first
plus sign (Go strings.Index) and run the digit loop on the remainder. -/
def parseHunkStart (header : String) : Int :=
  match header.toList.dropWhile (fun c => c ≠ '+') with
  | [] => 0
  | _ :: rest => parseDigitsGo rest 0 0

/-- The digit characters the loop actually consumes: the first character
after the plus when it is a digit, followed by the maximal digit run
starting at the second character. -/
def specHunkDigits (cs : List Char) : List Char :=
  match cs with
  | [] => []
  | c :: rest => (if isGoDigit c then [c] else []) ++ rest.takeWhile isGoDigit

/-- Decimal value of a digit character sequence (unbounded). -/
def decimalValue (ds : List Char) : Int :=
  ds.foldl (fun a c => a * 10 + ((c.toNat : Int) - 48)) 0

/-! ## newDiffLines (reviewer.go 407-484) and contains (509-521) -/

/-- A contiguous range of valid new-file lines (Go struct lineRange with
fields start and end; end is called stop here). -/
structure lineRange where
  start : Int
  stop : Int
deriving Repr, DecidableEq

/-- Parser state of newDiffLines: the Go locals currentFile,
currentLine, rangeStart, inRange, plus the map under construction. -/
structure DiffParseState where
  currentFile : String
  currentLine : Int
  rangeStart : Int
  inRange : Bool
  files : String → List lineRange

/-- The flushRange closure (reviewer.go 430-438). -/
def flushRange (st : DiffParseState) : DiffParseState :=
  if st.inRange ∧ st.currentFile ≠ "" ∧ st.rangeStart > 0 then
    { st with
      files := fun f =>
        if f = st.currentFile then
          st.files f ++ [⟨st.rangeStart, wrap64 (st.currentLine - 1)⟩]
        else st.files f
      inRange := false }
  else st

/-- Consuming one new-file line: opens a pending range when none is
open, then advances the cursor. -/
def consumeLine (st : DiffParseState) : DiffParseState :=
  if !st.inRange then
    { st with
      rangeStart := st.currentLine
      inRange := true
      currentLine := wrap64 (st.currentLine + 1) }
  else
    { st with currentLine := wrap64 (st.currentLine + 1) }

/-- One iteration of the line loop of newDiffLines (reviewer.go
440-480), with the Go switch cases in source order. -/
def diffStep (st : DiffParseState) (line : String) : DiffParseState :=
  if strStartsWith line "+++ b/" then
    let st' := flushRange st
    { st' with currentFile := strTrimPre line "+++ b/", currentLine := 0 }
  else if strStartsWith line "@@" then
    let st' := flushRange st
    if parseHunkStart line > 0 then { st' with currentLine := parseHunkStart line }
    else st'
  else if st.currentFile ≠ "" ∧ st.currentLine > 0 then
    if strStartsWith line "+" ∨ strStartsWith line " " then consumeLine st
    else if strStartsWith line "-" then flushRange st
    else if strStartsWith line "\\" then st
    else consumeLine st
  else st

/-- The diffLines value (Go struct diffLines): map from file path to its
ordered stored ranges, missing keys reading as the empty list. -/
structure diffLines where
  files : String → List lineRange

/-- The initial parser state of newDiffLines. -/
def initDiffState : DiffParseState :=
  ⟨"", 0, 0, false, fun _ => []⟩

/-- newDiffLines on an already split list of lines. -/
def newDiffLinesList (ls : List String) : diffLines :=
  ⟨(flushRange (ls.foldl diffStep initDiffState)).files⟩

/-- Embedding of newDiffLines (reviewer.go 419-484). -/
def newDiffLines (diff : String) : diffLines :=
  newDiffLinesList (strSplitNl diff)

/-- Embedding of the contains method (reviewer.go 509-521). -/
def diffLines.contains (dl : diffLines) (file : String) (line : Int) : Bool :=
  (dl.files file).any (fun r => line ≥ r.start && line ≤ r.stop)

/-- Number of stored ranges of a file covering a given line. -/
def coverageCount (dl : diffLines) (file : String) (line : Int) : Nat :=
  (dl.files file).countP (fun r => r.start ≤ line && line ≤ r.stop)

/-! ## A structured model of syntactically valid unified diffs

The claims quantify over syntactically valid unified diffs.  A valid
diff is modelled structurally (files, hunks, body lines) together with a
renderer producing the textual lines git would emit; validity of a diff
text means being the rendering of a well formed structure. -/

/-- One body line of a hunk. -/
inductive BodyLine
  | add (content : String)
  | del (content : String)
  | ctx (content : String)
deriving Repr, DecidableEq

/-- Whether a body line occupies a line of the new file version. -/
def BodyLine.consumes : BodyLine → Bool
  | .add _ => true
  | .del _ => false
  | .ctx _ => true

/-- Whether a body line occupies a line of the old file version. -/
def BodyLine.inOld : BodyLine → Bool
  | .add _ => false
  | .del _ => true
  | .ctx _ => true

/-- Number of new-file lines a hunk body occupies. -/
def consumedCount (body : List BodyLine) : Nat :=
  (body.filter BodyLine.consumes).length

/-- A diff hunk: header numbers and body lines. -/
structure Hunk where
  oldStart : Nat
  oldCount : Nat
  newStart : Nat
  newCount : Nat
  body : List BodyLine
deriving Repr, DecidableEq

/-- One file section of a unified diff. -/
structure FileDiff where
  path : String
  hunks : List Hunk
deriving Repr, DecidableEq

/-- Fuel-driven decimal digit extraction; any fuel above the value works. -/
def digitsOfAux : Nat → Nat → List Char
  | 0, _ => []
  | fuel + 1, n =>
    if n < 10 then [Char.ofNat (48 + n)]
    else digitsOfAux fuel (n / 10) ++ [Char.ofNat (48 + n % 10)]

/-- Decimal digit characters of a natural number. -/
def digitsOf (n : Nat) : List Char :=
  digitsOfAux (n + 1) n

/-- Decimal rendering of a natural number. -/
def natDecimal (n : Nat) : String :=
  ⟨digitsOf n⟩

/-- Textual rendering of a body line. -/
def renderBodyLine : BodyLine → String
  | .add c => "+" ++ c
  | .del c => "-" ++ c
  | .ctx c => " " ++ c

/-- Textual rendering of a hunk header. -/
def renderHunkHeader (h : Hunk) : String :=
  "@@ -" ++ natDecimal h.oldStart ++ "," ++ natDecimal h.oldCount ++ " +"
    ++ natDecimal h.newStart ++ "," ++ natDecimal h.newCount ++ " @@"

/-- Textual rendering of a hunk. -/
def renderHunk (h : Hunk) : List String :=
  renderHunkHeader h :: h.body.map renderBodyLine

/-- Textual rendering of a file section, with the metadata lines git
emits before each file. -/
def renderFile (fd : FileDiff) : List String :=
  ["diff --git a/" ++ fd.path ++ " b/" ++ fd.path,
   "index 1111111..2222222 100644",
   "--- a/" ++ fd.path,
   "+++ b/" ++ fd.path] ++ fd.hunks.flatMap renderHunk

/-- Textual rendering (as lines) of a whole diff. -/
def renderLines (d : List FileDiff) : List String :=
  d.flatMap renderFile

/-- Line contents may not contain a newline. -/
def goodContent (c : String) : Bool :=
  !c.toList.contains '\n'

/-- Well formed body line: no embedded newline, and an added line whose
rendering would collide with a new-file header is excluded. -/
def BodyLine.wf : BodyLine → Bool
  | .add c => goodContent c && !strStartsWith ("+" ++ c) "+++ b/"
  | .del c => goodContent c
  | .ctx c => goodContent c

/-- One past the last new-file line a hunk occupies. -/
def hunkConsumedEnd (h : Hunk) : Nat :=
  h.newStart + consumedCount h.body

/-- Well formed hunk: positive new start, consistent header counts,
well formed body, and small enough to stay far from 64-bit overflow. -/
def Hunk.wf (h : Hunk) : Bool :=
  1 ≤ h.newStart && h.body.all BodyLine.wf
    && h.newCount == consumedCount h.body
    && h.oldCount == (h.body.filter BodyLine.inOld).length
    && hunkConsumedEnd h + 2 < 2 ^ 63

/-- Consecutive hunks of one file occupy increasing new-file intervals. -/
def hunksOrdered : List Hunk → Bool
  | [] => true
  | [_] => true
  | h1 :: h2 :: t => (hunkConsumedEnd h1 ≤ h2.newStart) && hunksOrdered (h2 :: t)

/-- Well formed file section: nonempty newline-free path, at least one
hunk, all hunks well formed and ordered. -/
def FileDiff.wf (fd : FileDiff) : Bool :=
  !(fd.path == "") && goodContent fd.path && !fd.hunks.isEmpty
    && fd.hunks.all Hunk.wf && hunksOrdered fd.hunks

/-- Pairwise distinct strings. -/
def pathsDistinct : List String → Bool
  | [] => true
  | p :: t => !t.contains p && pathsDistinct t

/-- A syntactically valid unified diff structure. -/
def validDiff (d : List FileDiff) : Bool :=
  d.all FileDiff.wf && pathsDistinct (d.map FileDiff.path)

/-! ### The new-file lines a structured diff occupies -/

/-- Whether new-file line l of file f is occupied by an add or context
line of some hunk of the structured diff. -/
def specConsumedB (d : List FileDiff) (f : String) (l : Int) : Bool :=
  d.any (fun fd => fd.path == f && fd.hunks.any (fun h =>
    (h.newStart : Int) ≤ l && l < (hunkConsumedEnd h : Int)))

/-- The cursor positions at which deletion lines of a hunk body sit
(the new-file position where the deleted content would have been). -/
def hunkDelPositions : Int → List BodyLine → List Int
  | _, [] => []
  | c, .del _ :: rest => c :: hunkDelPositions c rest
  | c, .add _ :: rest => hunkDelPositions (c + 1) rest
  | c, .ctx _ :: rest => hunkDelPositions (c + 1) rest

/-- Whether l is a deletion position of file f in the structured diff. -/
def specDelPosB (d : List FileDiff) (f : String) (l : Int) : Bool :=
  d.any (fun fd => fd.path == f && fd.hunks.any (fun h =>
    (hunkDelPositions (h.newStart : Int) h.body).contains l))

/-- Whether l lies in the two-line metadata padding that the parser
appends after the last hunk of a file that is followed by another file
(the inter-file metadata lines are consumed as context lines). -/
def specPadB : List FileDiff → String → Int → Bool
  | [], _, _ => false
  | [_], _, _ => false
  | fd :: rest, f, l =>
    (fd.path == f &&
      (match fd.hunks.getLast? with
       | none => false
       | some h => (hunkConsumedEnd h : Int) ≤ l && l ≤ (hunkConsumedEnd h : Int) + 1))
    || specPadB rest f l

/-! ### Specification-side walk of hunk bodies -/

/-- Result of walking a hunk body: closed ranges emitted, final cursor,
and the still open pending range start, if any. -/
structure WalkResult where
  ranges : List lineRange
  cursor : Int
  pending : Option Int
deriving Repr, DecidableEq

/-- Walk a hunk body from a cursor and a pending range start: an add or
context line opens the pending range if none is open and advances the
cursor; a deletion closes the pending range without advancing. -/
def specBody : Int → Option Int → List BodyLine → WalkResult
  | c, p, [] => ⟨[], c, p⟩
  | c, p, .del _ :: rest =>
    let r := specBody c none rest
    ⟨(match p with | some s => [⟨s, c - 1⟩] | none => []) ++ r.ranges, r.cursor, r.pending⟩
  | c, p, .add _ :: rest => specBody (c + 1) (some (p.getD c)) rest
  | c, p, .ctx _ :: rest => specBody (c + 1) (some (p.getD c)) rest

/-- Closing a pending range at cursor e. -/
def pendingClose (p : Option Int) (e : Int) : List lineRange :=
  match p with
  | some s => [⟨s, e - 1⟩]
  | none => []

/-- Ranges a hunk contributes when its pending range is closed by a
following hunk header, file header, or end of input. -/
def specHunkClosed (h : Hunk) : List lineRange :=
  let r := specBody (h.newStart : Int) none h.body
  r.ranges ++ pendingClose r.pending r.cursor

/-- Ranges the last hunk of a non-final file contributes: the two
metadata lines of the following file are consumed as context lines
before the old-file header flushes, so the final range runs two lines
past the hunk. -/
def specHunkPadded (h : Hunk) : List lineRange :=
  let r := specBody (h.newStart : Int) none h.body
  r.ranges ++ [⟨r.pending.getD r.cursor, r.cursor + 1⟩]

/-- Ranges of a file's hunk list; hasNext tells whether another file
section follows. -/
def specHunksRanges : List Hunk → Bool → List lineRange
  | [], _ => []
  | [h], hasNext => if hasNext then specHunkPadded h else specHunkClosed h
  | h :: h2 :: t, hasNext => specHunkClosed h ++ specHunksRanges (h2 :: t) hasNext

/-- The ranges the parser is expected to store for each file of a
structured diff. -/
def specIndex : List FileDiff → String → List lineRange
  | [], _ => []
  | fd :: rest, g =>
    (if fd.path = g then specHunksRanges fd.hunks (!rest.isEmpty) else [])
      ++ specIndex rest g

/-! ### The parser fold over a rendered hunk body -/

/-- The pending range encoded by the parser's inRange and rangeStart. -/
def optOf (inR : Bool) (rs : Int) : Option Int :=
  if inR then some rs else none

/-- Walking a whole hunk list: closed ranges of all but the last hunk,
and the still running walk of the last hunk. -/
def hunksWalk : List Hunk → (List lineRange × WalkResult)
  | [] => ([], ⟨[], 0, none⟩)
  | [h] => ([], specBody (h.newStart : Int) none h.body)
  | h :: h2 :: t =>
    let r := hunksWalk (h2 :: t)
    (specHunkClosed h ++ r.1, r.2)

/-- The tail ranges the previous file receives when its section ends:
with a following file, the two consumed metadata lines extend the
pending range two lines past the cursor; at end of input the pending
range is closed at the cursor. -/
def tailContribution (p : Option Int) (e : Int) (more : Bool) : List lineRange :=
  if more then [⟨p.getD e, e + 1⟩] else pendingClose p e

/-! ### Coverage counting over the specification index -/

/-- Number of lines of coverage a pending range contributes once closed
at cursor c. -/
def pendCount (p : Option Int) (c l : Int) : Nat :=
  match p with
  | some s => if s ≤ l ∧ l ≤ c - 1 then 1 else 0
  | none => 0

/-! ### Coverage of a file's full hunk list -/

/-- Whether line l lies in the new-file span of some hunk of the list. -/
def anySpanB (hs : List Hunk) (l : Int) : Bool :=
  hs.any (fun h => (h.newStart : Int) ≤ l && l < (hunkConsumedEnd h : Int))

/-- Whether l lies in the two-line metadata padding past the last hunk. -/
def padLastB (hs : List Hunk) (l : Int) : Bool :=
  match hs.getLast? with
  | none => false
  | some h => (hunkConsumedEnd h : Int) ≤ l && l ≤ (hunkConsumedEnd h : Int) + 1

/-! ### Concrete two-file diff exercising the metadata padding -/

/-- Structured two-file diff: f1 has one hunk keeping line 1 and deleting
one old line; f2 has one single-context-line hunk. -/
def d0 : List FileDiff :=
  [⟨"f1", [⟨1, 2, 1, 1, [.ctx "keep", .del "gone"]⟩]⟩,
   ⟨"f2", [⟨1, 1, 1, 1, [.ctx "x"]⟩]⟩]

/-- Textual rendering of d0 as a unified diff. -/
def s0 : String :=
  "diff --git a/f1 b/f1\nindex 1111111..2222222 100644\n--- a/f1\n+++ b/f1\n@@ -1,2 +1,1 @@\n keep\n-gone\ndiff --git a/f2 b/f2\nindex 1111111..2222222 100644\n--- a/f2\n+++ b/f2\n@@ -1,1 +1,1 @@\n x"

/-- Structured single-file diff with a deletion after the kept line. -/
def d1 : List FileDiff :=
  [⟨"g1", [⟨1, 2, 1, 1, [.ctx "keep", .del "gone"]⟩]⟩]

/-- Textual rendering of d1 as a unified diff. -/
def s1 : String :=
  "diff --git a/g1 b/g1\nindex 1111111..2222222 100644\n--- a/g1\n+++ b/g1\n@@ -1,2 +1,1 @@\n keep\n-gone"

/-! ### The range invariant of the parser, over arbitrary diff text -/

/-- Invariant maintained by the parser state: stored ranges are closed
with positive start, the cursor stays in signed 64-bit range, and an
open range has a positive tracked start strictly below the cursor
unless the cursor has wrapped around. -/
def stateRangesOK (st : DiffParseState) : Prop :=
  (∀ f r, r ∈ st.files f → 1 ≤ r.start ∧ r.start ≤ r.stop)
  ∧ (-(2 ^ 63) ≤ st.currentLine ∧ st.currentLine ≤ 2 ^ 63 - 1)
  ∧ (st.inRange = true → 1 ≤ st.rangeStart ∧ st.rangeStart ≤ 2 ^ 63 - 1
      ∧ st.currentFile ≠ ""
      ∧ (st.rangeStart + 1 ≤ st.currentLine ∨ st.currentLine = -(2 ^ 63)))

/-! ## PostReview (reviewer.go 263-333) and buildReviewComment -/

/-- Embedding of CodeSuggestion (types.go). -/
structure CodeSuggestion where
  file : String
  lineStart : Int
  lineEnd : Int
  severity : String
  message : String
  suggestion : String
deriving Repr, DecidableEq

/-- Embedding of ReviewResult (types.go). -/
structure ReviewResult where
  summary : String
  suggestions : List CodeSuggestion
  approved : Bool
deriving Repr, DecidableEq

/-- ASCII upper-casing of one character. -/
def upChar (c : Char) : Char :=
  if 'a' ≤ c ∧ c ≤ 'z' then Char.ofNat (c.toNat - 32) else c

/-- Modelled from the spec: the severity is rendered uppercase by
NormalizedSeverity; the method body is not among the provided sources. -/
def normalizedSeverity (s : CodeSuggestion) : String :=
  ⟨s.severity.toList.map upChar⟩

/-- Embedding of the comment body assembly of buildReviewComment
(reviewer.go 384-389): the fix text goes through
extractCodeFromSuggestion before entering the suggestion block. -/
def buildCommentBody (s : CodeSuggestion) : String :=
  "**" ++ normalizedSeverity s ++ "**: " ++ s.message
    ++ (if s.suggestion ≠ "" then
          "\n\n```suggestion\n" ++ extractCodeFromSuggestion s.suggestion ++ "\n```"
        else "")

/-- Embedding of the GitHub draft review comment fields buildReviewComment
fills in. -/
structure DraftReviewComment where
  path : String
  body : String
  line : Int
  side : String
  startLine : Option Int
  startSide : Option String
deriving Repr, DecidableEq

/-- Embedding of buildReviewComment (reviewer.go 383-405). -/
def buildReviewComment (s : CodeSuggestion) (diffInfo : diffLines) :
    DraftReviewComment :=
  if s.lineStart ≠ s.lineEnd ∧ s.lineStart > 0
      ∧ diffInfo.contains s.file s.lineStart
  then ⟨s.file, buildCommentBody s, s.lineEnd, "RIGHT", some s.lineStart, some "RIGHT"⟩
  else ⟨s.file, buildCommentBody s, s.lineEnd, "RIGHT", none, none⟩

/-- The partition loop of PostReview (reviewer.go 277-287): a suggestion
whose end line the diff contains becomes an inline comment, the others
are collected in order as unresolved. -/
def postReviewPartition (diffInfo : diffLines) (ss : List CodeSuggestion) :
    List DraftReviewComment × List CodeSuggestion :=
  ss.foldl
    (fun acc s =>
      if diffInfo.contains s.file s.lineEnd
      then (acc.1 ++ [buildReviewComment s diffInfo], acc.2)
      else (acc.1, acc.2 ++ [s]))
    ([], [])

/-- Decimal rendering of an integer (Go %d). -/
def intDecimal (x : Int) : String :=
  if x < 0 then "-" ++ natDecimal x.natAbs else natDecimal x.toNat

/-- One fallback entry of the review body (reviewer.go 296-304); i is
the zero-based loop index, printed as i+1; the raw fix text enters the
suggestion block verbatim. -/
def fallbackEntry (i : Nat) (s : CodeSuggestion) : String :=
  "### " ++ natDecimal (i + 1) ++ ". `" ++ s.file ++ "` (lines "
    ++ intDecimal s.lineStart ++ "-" ++ intDecimal s.lineEnd ++ ") - "
    ++ normalizedSeverity s ++ "\n\n"
    ++ s.message
    ++ (if s.suggestion ≠ "" then
          "\n\n```suggestion\n" ++ s.suggestion ++ "\n```"
        else "")
    ++ "\n\n"

/-- The review body built by PostReview (reviewer.go 289-305). -/
def reviewBody (result : ReviewResult) (unresolved : List CodeSuggestion) :
    String :=
  result.summary
    ++ (if unresolved.length > 0 then
          "\n\n---\n\n## Additional Suggestions (outside diff context)\n\n"
            ++ String.join (unresolved.enum.map (fun p => fallbackEntry p.1 p.2))
        else "")

/-- The review submission PostReview constructs (reviewer.go 307-326). -/
structure ReviewRequestPayload where
  body : String
  event : String
  comments : List DraftReviewComment
deriving Repr, DecidableEq

/-- Embedding of the submission assembly of PostReview: partition the
surviving suggestions against the diff index, build the body, and pick
the event from the approved flag (reviewer.go 307-311). -/
def postReviewPayload (diff : String) (result : ReviewResult) :
    ReviewRequestPayload :=
  let diffInfo := newDiffLines diff
  let parts := postReviewPartition diffInfo result.suggestions
  ⟨reviewBody result parts.2,
    if result.approved then "APPROVE" else "COMMENT",
    parts.1⟩

/-- Concrete suggestion whose fix text carries a nested fenced block. -/
def cexSugg : CodeSuggestion :=
  ⟨"a.go", 1, 2, "error", "msg", "Use this:\n```go\nx := 1\n```"⟩

/-! ## JudgeSuggestions (judge evaluation, part_001 64-150) -/

/-- Embedding of JudgeConfig; the float64 minimum score is modelled as a
rational. -/
structure JudgeConfig where
  enabled : Bool
  model : String
  minScore : Rat
deriving Repr, DecidableEq

/-- The judge response fields used by the loop (judge.Judgement). -/
structure Judgement where
  score : Rat
  reasoning : String
  suggestions : List String
deriving Repr, DecidableEq

/-- Embedding of JudgedSuggestion. -/
structure JudgedSuggestion where
  suggestion : CodeSuggestion
  score : Rat
  reasoning : String
  improvement : List String
deriving Repr, DecidableEq

/-- One iteration of the judge loop (part_001 117-144) on suggestion s,
given the outcome of its judge call: an error fails open keeping the
suggestion with score 1.0 and a failure reasoning; a score below the
threshold drops it; otherwise the judgement is recorded. -/
def judgeOne (outcome : Except String Judgement) (minScore : Rat)
    (s : CodeSuggestion) : List JudgedSuggestion :=
  match outcome with
  | .error _ => [⟨s, 1, "Judge evaluation failed", []⟩]
  | .ok j =>
    if j.score < minScore then [] else [⟨s, j.score, j.reasoning, j.suggestions⟩]

/-- Embedding of JudgeSuggestions (part_001 64-150): disabled judging or
an empty input passes every suggestion through with score 1.0; otherwise
the judge is created (failure aborts) and each suggestion is judged in
order, failing open per suggestion.  oracle i abstracts the judge call
on the i-th suggestion; marshalling of a suggestion cannot fail and is
not modelled. -/
def JudgeSuggestions (config : JudgeConfig)
    (createJudge : Except String Unit)
    (oracle : Nat → Except String Judgement)
    (suggestions : List CodeSuggestion) :
    Except String (List JudgedSuggestion) :=
  if !config.enabled || suggestions.isEmpty then
    .ok (suggestions.map (fun s => ⟨s, 1, "", []⟩))
  else
    match createJudge with
    | .error e => .error ("create judge: " ++ e)
    | .ok _ =>
      .ok (suggestions.enum.foldl
        (fun acc p => acc ++ judgeOne (oracle p.1) config.minScore p.2) [])

/-- Indexed specification of the judge loop from position i on. -/
def judgeList (m : Rat) (oracle : Nat → Except String Judgement) :
    Nat → List CodeSuggestion → List JudgedSuggestion
  | _, [] => []
  | i, s :: rest => judgeOne (oracle i) m s ++ judgeList m oracle (i + 1) rest

/-! # Theorems -/

/-! ### Relating the extraction fold to the fenced-block listing -/

theorem getLast?_getD_cons {α : Type} (a : α) (l : List α) (d : α) :
    (a :: l).getLast?.getD d = l.getLast?.getD a := by
  induction l generalizing a d with
  | nil => rfl
  | cons b t ih =>
    rw [List.getLast?_cons_cons]
    exact (ih b d).trans (ih b a).symm

theorem extractFold_codeLines (ls : List String) :
    ∀ (b : Bool) (code cur : List String),
      (ls.foldl extractStep ⟨b, code, cur⟩).codeLines
        = ((specFencedBlocks ls b cur).filter (fun x => x ≠ [])).getLast?.getD code := by
  induction ls with
  | nil => intro b code cur; rfl
  | cons l t ih =>
    intro b code cur
    by_cases hf : strStartsWith (goTrimSpace l) "```"
    · cases b with
      | true =>
        have hstep : extractStep ⟨true, code, cur⟩ l
            = ⟨false, if cur.length > 0 then cur else code, []⟩ := by
          simp [extractStep, hf]
        rw [List.foldl_cons, hstep, ih]
        have hspec : specFencedBlocks (l :: t) true cur
            = cur :: specFencedBlocks t false [] := by
          simp [specFencedBlocks, hf]
        rw [hspec]
        by_cases hcur : cur = []
        · subst hcur
          simp
        · have hlen : cur.length > 0 := List.length_pos.mpr hcur
          rw [if_pos hlen, List.filter_cons_of_pos (by simp [hcur]), getLast?_getD_cons]
      | false =>
        have hstep : extractStep ⟨false, code, cur⟩ l = ⟨true, code, []⟩ := by
          simp [extractStep, hf]
        rw [List.foldl_cons, hstep, ih]
        have hspec : specFencedBlocks (l :: t) false cur
            = specFencedBlocks t true [] := by
          simp [specFencedBlocks, hf]
        rw [hspec]
    · cases b with
      | true =>
        have hstep : extractStep ⟨true, code, cur⟩ l = ⟨true, code, cur ++ [l]⟩ := by
          simp [extractStep, hf]
        rw [List.foldl_cons, hstep, ih]
        have hspec : specFencedBlocks (l :: t) true cur
            = specFencedBlocks t true (cur ++ [l]) := by
          simp [specFencedBlocks, hf]
        rw [hspec]
      | false =>
        have hstep : extractStep ⟨false, code, cur⟩ l = ⟨false, code, cur⟩ := by
          simp [extractStep, hf]
        rw [List.foldl_cons, hstep, ih]
        have hspec : specFencedBlocks (l :: t) false cur
            = specFencedBlocks t false cur := by
          simp [specFencedBlocks, hf]
        rw [hspec]

theorem mem_of_getLastOpt {α : Type} {l : List α} {a : α} (h : l.getLast? = some a) :
    a ∈ l := by
  induction l with
  | nil => simp at h
  | cons b t ih =>
    cases t with
    | nil =>
      simp only [List.getLast?_singleton, Option.some.injEq] at h
      simp [h]
    | cons c u =>
      rw [List.getLast?_cons_cons] at h
      exact List.mem_cons_of_mem _ (ih h)

/-- Claim C1, amended: when the input contains a triple backtick and at
least one completed fenced pair has nonempty interior,
extractCodeFromSuggestion returns the interior of the last such nonempty
completed pair; otherwise (no backtick, no completed pair, or every
completed pair empty) it returns the input unchanged. -/
theorem claim_C1 (s : String) :
    extractCodeFromSuggestion s =
      match (if strContains s "```" then
               lastNonemptyBlock (specFencedBlocks (strSplitNl s) false []) else none) with
      | some b => String.intercalate "\n" b
      | none => s := by
  by_cases hc : strContains s "```"
  · simp only [extractCodeFromSuggestion, hc, if_true, Bool.not_true]
    cases hL : lastNonemptyBlock (specFencedBlocks (strSplitNl s) false []) with
    | none =>
      have h0 : (List.foldl extractStep ⟨false, [], []⟩ (strSplitNl s)).codeLines = [] := by
        rw [extractFold_codeLines]
        unfold lastNonemptyBlock at hL
        rw [hL]
        rfl
      simp [h0]
    | some blk =>
      have hL' : ((specFencedBlocks (strSplitNl s) false []).filter
          (fun x => x ≠ [])).getLast? = some blk := hL
      have hmem : blk ∈ (specFencedBlocks (strSplitNl s) false []).filter
          (fun x => x ≠ []) := mem_of_getLastOpt hL'
      have hne : blk ≠ [] := by
        have := (List.mem_filter.mp hmem).2
        simpa using this
      have h0 : (List.foldl extractStep ⟨false, [], []⟩ (strSplitNl s)).codeLines = blk := by
        rw [extractFold_codeLines]
        rw [hL']
        rfl
      simp [h0, List.length_pos.mpr hne]
  · simp [extractCodeFromSuggestion, hc]

/-- Claim C1 counterexample: on this input the last completed fenced pair
has empty captured content, so the claim as stated requires the original
text back unchanged; the code instead returns the interior of the earlier
nonempty pair. -/
theorem claim_C1_cex :
    (specFencedBlocks (strSplitNl "```\na\n```\n```\n```") false []).getLast? = some []
    ∧ extractCodeFromSuggestion "```\na\n```\n```\n```" = "a"
    ∧ "a" ≠ "```\na\n```\n```\n```" := by
  refine ⟨by decide, by decide, by decide⟩

theorem wrap64_emod (x : Int) : wrap64 x % 2 ^ 64 = x % 2 ^ 64 := by
  unfold wrap64
  omega

theorem wrap64_congr {x y : Int} (h : x % 2 ^ 64 = y % 2 ^ 64) :
    wrap64 x = wrap64 y := by
  unfold wrap64
  omega

theorem wrap64_step (a : Int) (d : Int) :
    wrap64 (wrap64 a * 10 + d) = wrap64 (a * 10 + d) := by
  apply wrap64_congr
  have h := wrap64_emod a
  omega

theorem foldl_wrap64 (ds : List Char) :
    ∀ a : Int,
      ds.foldl (fun x c => wrap64 (x * 10 + ((c.toNat : Int) - 48))) (wrap64 a)
        = wrap64 (ds.foldl (fun x c => x * 10 + ((c.toNat : Int) - 48)) a) := by
  induction ds with
  | nil => intro a; rfl
  | cons c t ih =>
    intro a
    rw [List.foldl_cons, List.foldl_cons, wrap64_step]
    exact ih (a * 10 + ((c.toNat : Int) - 48))

theorem parseDigitsGo_pos (cs : List Char) :
    ∀ (i : Nat) (a : Int), 0 < i →
      parseDigitsGo cs i a
        = (cs.takeWhile isGoDigit).foldl
            (fun x c => wrap64 (x * 10 + ((c.toNat : Int) - 48))) a := by
  induction cs with
  | nil => intro i a _; rfl
  | cons c t ih =>
    intro i a hi
    by_cases hd : isGoDigit c
    · rw [parseDigitsGo, if_pos hd, List.takeWhile_cons_of_pos hd, List.foldl_cons]
      exact ih (i + 1) _ (Nat.succ_pos i)
    · rw [parseDigitsGo, if_neg hd, if_pos hi, List.takeWhile_cons_of_neg hd]
      rfl

theorem parseDigitsGo_spec (cs : List Char) :
    parseDigitsGo cs 0 0 = wrap64 (decimalValue (specHunkDigits cs)) := by
  cases cs with
  | nil =>
    show (0 : Int) = wrap64 (decimalValue [])
    unfold decimalValue wrap64
    norm_num
  | cons c rest =>
    by_cases hd : isGoDigit c
    · rw [parseDigitsGo, if_pos hd, parseDigitsGo_pos rest 1 _ Nat.one_pos]
      have h0 : wrap64 (0 * 10 + ((c.toNat : Int) - 48))
          = wrap64 ((c.toNat : Int) - 48) := by norm_num
      rw [h0]
      have := foldl_wrap64 (rest.takeWhile isGoDigit) ((c.toNat : Int) - 48)
      rw [this]
      simp [specHunkDigits, decimalValue, hd]
    · rw [parseDigitsGo, if_neg hd]
      have hzero : (0 : Int) = wrap64 0 := by unfold wrap64; norm_num
      simp only [Nat.lt_irrefl, if_neg, if_false]
      rw [parseDigitsGo_pos rest 1 _ Nat.one_pos, hzero, foldl_wrap64]
      simp [specHunkDigits, decimalValue, hd]

/-- Claim C5, amended: parseHunkStart returns the 64-bit wrapped decimal
value of the digit sequence made of the first character after the first
plus sign (when it is a digit) followed by the maximal digit run starting
at the second character; it returns 0 when the line has no plus sign at
all (a single non-digit directly after the plus is skipped rather than
terminating the parse). -/
theorem claim_C5 (header : String) :
    parseHunkStart header =
      match header.toList.dropWhile (fun c => c ≠ '+') with
      | [] => 0
      | _ :: rest => wrap64 (decimalValue (specHunkDigits rest)) := by
  unfold parseHunkStart
  cases h : header.toList.dropWhile (fun c => c ≠ '+') with
  | nil => rfl
  | cons c rest => exact parseDigitsGo_spec rest

/-- Claim C5 counterexample: in this hunk header no digit appears
immediately after the first plus sign (the leading digit run there is
empty), so the claim as stated requires the result 0; the code skips the
single non-digit and returns 34. -/
theorem claim_C5_cex :
    (("@@ -1,2 +x34 @@").toList.dropWhile (fun c => c ≠ '+')).tail.takeWhile isGoDigit = []
    ∧ parseHunkStart "@@ -1,2 +x34 @@" = 34
    ∧ (34 : Int) ≠ 0 := by
  refine ⟨by decide, by decide, by decide⟩

/-! ### Decimal digits lemmas -/

theorem digitsOfAux_congr (n : Nat) :
    ∀ f1 f2 : Nat, n < f1 → n < f2 → digitsOfAux f1 n = digitsOfAux f2 n := by
  induction n using Nat.strong_induction_on with
  | _ n ih =>
    intro f1 f2 h1 h2
    match f1, f2 with
    | g1 + 1, g2 + 1 =>
      show (if n < 10 then _ else digitsOfAux g1 (n / 10) ++ _)
          = (if n < 10 then _ else digitsOfAux g2 (n / 10) ++ _)
      by_cases hn : n < 10
      · rw [if_pos hn, if_pos hn]
      · rw [if_neg hn, if_neg hn,
          ih (n / 10) (by omega) g1 g2 (by omega) (by omega)]

theorem digitsOf_eq (n : Nat) :
    digitsOf n = if n < 10 then [Char.ofNat (48 + n)]
      else digitsOf (n / 10) ++ [Char.ofNat (48 + n % 10)] := by
  show digitsOfAux (n + 1) n = _
  show (if n < 10 then _ else digitsOfAux n (n / 10) ++ _) = _
  by_cases hn : n < 10
  · rw [if_pos hn, if_pos hn]
  · rw [if_neg hn, if_neg hn,
      digitsOfAux_congr (n / 10) n (n / 10 + 1) (by omega) (by omega)]
    rfl

theorem isGoDigit_ofNat (k : Nat) (hk : k < 10) :
    isGoDigit (Char.ofNat (48 + k)) = true := by
  interval_cases k <;> decide

theorem ofNat_digit_val (k : Nat) (hk : k < 10) :
    ((Char.ofNat (48 + k)).toNat : Int) - 48 = (k : Int) := by
  interval_cases k <;> decide

theorem digitsOf_all_digits (n : Nat) :
    ∀ c ∈ digitsOf n, isGoDigit c = true := by
  induction n using Nat.strong_induction_on with
  | _ n ih =>
    rw [digitsOf_eq]
    by_cases h : n < 10
    · rw [if_pos h]
      intro c hc
      rw [List.mem_singleton] at hc
      subst hc
      exact isGoDigit_ofNat n h
    · rw [if_neg h]
      intro c hc
      rcases List.mem_append.mp hc with h1 | h2
      · exact ih (n / 10) (Nat.div_lt_self (by omega) (by omega)) c h1
      · rw [List.mem_singleton] at h2
        subst h2
        exact isGoDigit_ofNat (n % 10) (Nat.mod_lt n (by omega))

theorem digitsOf_ne_nil (n : Nat) : digitsOf n ≠ [] := by
  rw [digitsOf_eq]
  by_cases h : n < 10
  · rw [if_pos h]; simp
  · rw [if_neg h]; simp

theorem decimalValue_digitsOf (n : Nat) : decimalValue (digitsOf n) = (n : Int) := by
  induction n using Nat.strong_induction_on with
  | _ n ih =>
    rw [digitsOf_eq]
    by_cases h : n < 10
    · rw [if_pos h]
      show (0 : Int) * 10 + _ = _
      rw [ofNat_digit_val n h]
      ring
    · rw [if_neg h]
      unfold decimalValue
      rw [List.foldl_append]
      show decimalValue (digitsOf (n / 10)) * 10 + _ = _
      rw [ih (n / 10) (Nat.div_lt_self (by omega) (by omega)),
        ofNat_digit_val (n % 10) (Nat.mod_lt n (by omega))]
      omega

/-! ### Parsing a rendered hunk header -/

theorem digit_ne_plus {c : Char} (h : isGoDigit c = true) : ¬ c = '+' := by
  intro he
  subst he
  simp [isGoDigit] at h

theorem dropWhile_no_plus (l1 : List Char) (l2 : List Char)
    (h : ∀ c ∈ l1, ¬ c = '+') :
    (l1 ++ l2).dropWhile (fun c => c ≠ '+') = l2.dropWhile (fun c => c ≠ '+') := by
  induction l1 with
  | nil => rfl
  | cons c t ih =>
    rw [List.cons_append, List.dropWhile_cons, if_pos]
    · exact ih (fun x hx => h x (List.mem_cons_of_mem c hx))
    · simp [h c (List.mem_cons_self c t)]

theorem takeWhile_digits_append (l1 : List Char)
    (hl1 : ∀ c ∈ l1, isGoDigit c = true) (c2 : Char) (h2 : isGoDigit c2 = false)
    (l2 : List Char) :
    (l1 ++ c2 :: l2).takeWhile isGoDigit = l1 := by
  induction l1 with
  | nil => simp [List.takeWhile_cons, h2]
  | cons c t ih =>
    rw [List.cons_append, List.takeWhile_cons, if_pos (hl1 c (List.mem_cons_self c t))]
    rw [ih (fun x hx => hl1 x (List.mem_cons_of_mem c hx))]

theorem specHunkDigits_of_digits (ds : List Char) (hne : ds ≠ [])
    (hds : ∀ c ∈ ds, isGoDigit c = true) (c2 : Char) (hc2 : isGoDigit c2 = false)
    (l2 : List Char) :
    specHunkDigits (ds ++ c2 :: l2) = ds := by
  cases ds with
  | nil => exact absurd rfl hne
  | cons d dt =>
    show (if isGoDigit d then [d] else [])
        ++ (dt ++ c2 :: l2).takeWhile isGoDigit = d :: dt
    rw [if_pos (hds d (List.mem_cons_self d dt)),
      takeWhile_digits_append dt (fun x hx => hds x (List.mem_cons_of_mem d hx)) c2 hc2 l2]
    rfl

theorem wrap64_eq_self {x : Int} (h1 : -(2 ^ 63) ≤ x) (h2 : x < 2 ^ 63) :
    wrap64 x = x := by
  unfold wrap64
  omega

theorem parseHunkStart_render (h : Hunk) (hns : h.newStart < 2 ^ 63) :
    parseHunkStart (renderHunkHeader h) = (h.newStart : Int) := by
  have hlist : (renderHunkHeader h).toList
      = (['@', '@', ' ', '-'] ++ digitsOf h.oldStart ++ [','] ++ digitsOf h.oldCount
          ++ [' '])
        ++ '+' :: (digitsOf h.newStart ++ ',' :: (digitsOf h.newCount ++ [' ', '@', '@'])) := by
    show (renderHunkHeader h).data = _
    simp only [renderHunkHeader, natDecimal, String.data_append]
    simp
  unfold parseHunkStart
  rw [hlist, dropWhile_no_plus]
  · rw [List.dropWhile_cons, if_neg (by decide)]
    show parseDigitsGo
        (digitsOf h.newStart ++ ',' :: (digitsOf h.newCount ++ [' ', '@', '@'])) 0 0
      = (h.newStart : Int)
    rw [parseDigitsGo_spec,
      specHunkDigits_of_digits (digitsOf h.newStart) (digitsOf_ne_nil _)
        (digitsOf_all_digits _) ',' (by decide) _,
      decimalValue_digitsOf]
    exact wrap64_eq_self (by omega) (by exact_mod_cast hns)
  · intro c hc
    rcases List.mem_append.mp hc with hcl | hcE
    · rcases List.mem_append.mp hcl with hcl2 | hcD
      · rcases List.mem_append.mp hcl2 with hcl3 | hcC
        · rcases List.mem_append.mp hcl3 with hcA | hcB
          · fin_cases hcA <;> decide
          · exact digit_ne_plus (digitsOf_all_digits _ c hcB)
        · fin_cases hcC
          decide
      · exact digit_ne_plus (digitsOf_all_digits _ c hcD)
    · fin_cases hcE
      decide

/-! ### Classification of rendered lines under the parser's prefix tests -/

theorem sw_add_plus (c : String) : strStartsWith ("+" ++ c) "+" = true := rfl

theorem sw_add_at (c : String) : strStartsWith ("+" ++ c) "@@" = false := rfl

theorem sw_del_dash (c : String) : strStartsWith ("-" ++ c) "-" = true := rfl

theorem sw_del_hdr (c : String) : strStartsWith ("-" ++ c) "+++ b/" = false := rfl

theorem sw_del_at (c : String) : strStartsWith ("-" ++ c) "@@" = false := rfl

theorem sw_del_plus (c : String) : strStartsWith ("-" ++ c) "+" = false := rfl

theorem sw_del_space (c : String) : strStartsWith ("-" ++ c) " " = false := rfl

theorem sw_ctx_space (c : String) : strStartsWith (" " ++ c) " " = true := rfl

theorem sw_ctx_hdr (c : String) : strStartsWith (" " ++ c) "+++ b/" = false := rfl

theorem sw_ctx_at (c : String) : strStartsWith (" " ++ c) "@@" = false := rfl

theorem sw_ctx_plus (c : String) : strStartsWith (" " ++ c) "+" = false := rfl

theorem sw_hdr_hdr (p : String) : strStartsWith ("+++ b/" ++ p) "+++ b/" = true := rfl

theorem trim_hdr (p : String) : strTrimPre ("+++ b/" ++ p) "+++ b/" = p := rfl

theorem sw_hunk_at (h : Hunk) : strStartsWith (renderHunkHeader h) "@@" = true := rfl

theorem sw_hunk_hdr (h : Hunk) : strStartsWith (renderHunkHeader h) "+++ b/" = false := rfl

/-! ### One parser step on each rendered line shape -/

theorem diffStep_body (st : DiffParseState) (b : BodyLine) (hwf : b.wf = true)
    (hf : st.currentFile ≠ "") (hc : st.currentLine > 0) :
    diffStep st (renderBodyLine b)
      = match b with
        | .add _ => consumeLine st
        | .ctx _ => consumeLine st
        | .del _ => flushRange st := by
  cases b with
  | add c =>
    have hnp : strStartsWith ("+" ++ c) "+++ b/" = false := by
      simp [BodyLine.wf] at hwf
      exact hwf.2
    show diffStep st ("+" ++ c) = consumeLine st
    unfold diffStep
    rw [if_neg (by simp [hnp]), if_neg (by simp [sw_add_at c]), if_pos ⟨hf, hc⟩,
      if_pos (Or.inl (sw_add_plus c))]
  | ctx c =>
    show diffStep st (" " ++ c) = consumeLine st
    unfold diffStep
    rw [if_neg (by simp [sw_ctx_hdr c]), if_neg (by simp [sw_ctx_at c]), if_pos ⟨hf, hc⟩,
      if_pos (Or.inr (sw_ctx_space c))]
  | del c =>
    show diffStep st ("-" ++ c) = flushRange st
    unfold diffStep
    rw [if_neg (by simp [sw_del_hdr c]), if_neg (by simp [sw_del_at c]), if_pos ⟨hf, hc⟩,
      if_neg (by simp [sw_del_plus c, sw_del_space c]), if_pos (sw_del_dash c)]

/-! ### Properties of the specification walk -/

theorem specBody_cursor (body : List BodyLine) :
    ∀ (c : Int) (p : Option Int),
      (specBody c p body).cursor = c + (consumedCount body : Int) := by
  induction body with
  | nil => intro c p; simp [specBody, consumedCount]
  | cons b rest ih =>
    intro c p
    cases b with
    | add s =>
      rw [specBody, ih]
      simp [consumedCount, BodyLine.consumes, List.filter_cons]
      omega
    | ctx s =>
      rw [specBody, ih]
      simp [consumedCount, BodyLine.consumes, List.filter_cons]
      omega
    | del s =>
      show (specBody c none rest).cursor = _
      rw [ih]
      simp [consumedCount, BodyLine.consumes, List.filter_cons]

theorem specBody_pending_ge (body : List BodyLine) :
    ∀ (c : Int) (p : Option Int), 1 ≤ c → (∀ s, p = some s → 1 ≤ s) →
      ∀ s, (specBody c p body).pending = some s → 1 ≤ s := by
  induction body with
  | nil => intro c p _ hp s hs; exact hp s hs
  | cons b rest ih =>
    intro c p hc hp s hs
    cases b with
    | add t =>
      refine ih (c + 1) (some (p.getD c)) (by omega) ?_ s hs
      intro u hu
      cases hpv : p with
      | none => rw [hpv] at hu; simp at hu; omega
      | some v =>
        rw [hpv] at hu
        simp at hu
        subst hu
        exact hp v hpv
    | ctx t =>
      refine ih (c + 1) (some (p.getD c)) (by omega) ?_ s hs
      intro u hu
      cases hpv : p with
      | none => rw [hpv] at hu; simp at hu; omega
      | some v =>
        rw [hpv] at hu
        simp at hu
        subst hu
        exact hp v hpv
    | del t =>
      have : (specBody c p (.del t :: rest)).pending = (specBody c none rest).pending := rfl
      rw [this] at hs
      exact ih c none hc (by simp) s hs

theorem update_update (m : String → List lineRange) (f : String) (a b : List lineRange) :
    (fun g => if g = f then (if g = f then m g ++ a else m g) ++ b
              else (if g = f then m g ++ a else m g))
      = fun g => if g = f then m g ++ (a ++ b) else m g := by
  funext g
  by_cases h : g = f <;> simp [h]

theorem update_nil (m : String → List lineRange) (f : String) :
    (fun g => if g = f then m g ++ ([] : List lineRange) else m g) = m := by
  funext g
  by_cases h : g = f <;> simp [h]

theorem foldBody (body : List BodyLine) :
    ∀ (f : String) (c rs0 : Int) (inR : Bool) (m : String → List lineRange),
      f ≠ "" → 1 ≤ c → (inR = true → 1 ≤ rs0) →
      c + (consumedCount body : Int) < 2 ^ 63 →
      body.all BodyLine.wf = true →
      ∃ rs' : Int,
        (body.map renderBodyLine).foldl diffStep ⟨f, c, rs0, inR, m⟩
          = ⟨f, (specBody c (optOf inR rs0) body).cursor,
              ((specBody c (optOf inR rs0) body).pending).getD rs',
              ((specBody c (optOf inR rs0) body).pending).isSome,
              fun g => if g = f then m g ++ (specBody c (optOf inR rs0) body).ranges
                       else m g⟩ := by
  induction body with
  | nil =>
    intro f c rs0 inR m hf hc hrs hbd hwf
    refine ⟨rs0, ?_⟩
    show DiffParseState.mk f c rs0 inR m = _
    cases inR <;> simp [optOf, specBody, update_nil]
  | cons b rest ih =>
    intro f c rs0 inR m hf hc hrs hbd hwf
    rw [List.all_cons, Bool.and_eq_true] at hwf
    rw [List.map_cons, List.foldl_cons]
    rw [diffStep_body ⟨f, c, rs0, inR, m⟩ b hwf.1 hf (by exact hc)]
    cases b with
    | add s =>
      show ∃ rs', (rest.map renderBodyLine).foldl diffStep
          (consumeLine ⟨f, c, rs0, inR, m⟩) = _
      have hccons : consumedCount (BodyLine.add s :: rest) = consumedCount rest + 1 := by
        simp [consumedCount, BodyLine.consumes, List.filter_cons]
      have hw : wrap64 (c + 1) = c + 1 := by
        rw [hccons] at hbd
        push_cast at hbd
        exact wrap64_eq_self (by omega) (by omega)
      have hcl : consumeLine ⟨f, c, rs0, inR, m⟩
          = ⟨f, c + 1, (optOf inR rs0).getD c, true, m⟩ := by
        cases inR <;> simp [consumeLine, optOf, hw]
      rw [hcl]
      have hspec : specBody c (optOf inR rs0) (BodyLine.add s :: rest)
          = specBody (c + 1) (some ((optOf inR rs0).getD c)) rest := rfl
      rw [hspec]
      refine ih f (c + 1) ((optOf inR rs0).getD c) true m hf (by omega) ?_ ?_ hwf.2
      · intro _
        cases hir : inR
        · simp [optOf]; omega
        · simp [optOf]; exact hrs hir
      · rw [hccons] at hbd
        push_cast at hbd
        omega
    | ctx s =>
      show ∃ rs', (rest.map renderBodyLine).foldl diffStep
          (consumeLine ⟨f, c, rs0, inR, m⟩) = _
      have hccons : consumedCount (BodyLine.ctx s :: rest) = consumedCount rest + 1 := by
        simp [consumedCount, BodyLine.consumes, List.filter_cons]
      have hw : wrap64 (c + 1) = c + 1 := by
        rw [hccons] at hbd
        push_cast at hbd
        exact wrap64_eq_self (by omega) (by omega)
      have hcl : consumeLine ⟨f, c, rs0, inR, m⟩
          = ⟨f, c + 1, (optOf inR rs0).getD c, true, m⟩ := by
        cases inR <;> simp [consumeLine, optOf, hw]
      rw [hcl]
      have hspec : specBody c (optOf inR rs0) (BodyLine.ctx s :: rest)
          = specBody (c + 1) (some ((optOf inR rs0).getD c)) rest := rfl
      rw [hspec]
      refine ih f (c + 1) ((optOf inR rs0).getD c) true m hf (by omega) ?_ ?_ hwf.2
      · intro _
        cases hir : inR
        · simp [optOf]; omega
        · simp [optOf]; exact hrs hir
      · rw [hccons] at hbd
        push_cast at hbd
        omega
    | del s =>
      show ∃ rs', (rest.map renderBodyLine).foldl diffStep
          (flushRange ⟨f, c, rs0, inR, m⟩) = _
      have hccons : consumedCount (BodyLine.del s :: rest) = consumedCount rest := by
        simp [consumedCount, BodyLine.consumes, List.filter_cons]
      have hw : wrap64 (c - 1) = c - 1 := by
        have : (consumedCount rest : Int) ≥ 0 := by positivity
        rw [hccons] at hbd
        exact wrap64_eq_self (by omega) (by omega)
      have hfl : flushRange ⟨f, c, rs0, inR, m⟩
          = ⟨f, c, rs0, false,
              fun g => if g = f then m g ++ pendingClose (optOf inR rs0) c else m g⟩ := by
        cases hir : inR
        · simp [flushRange, optOf, pendingClose, update_nil, hir]
        · have h1 : (1 : Int) ≤ rs0 := hrs hir
          simp only [flushRange]
          rw [if_pos ⟨trivial, hf, by omega⟩]
          simp [optOf, hir, pendingClose, hw]
      rw [hfl]
      obtain ⟨rs', hrec⟩ := ih f c rs0 false
        (fun g => if g = f then m g ++ pendingClose (optOf inR rs0) c else m g)
        hf hc (by simp) (by rw [hccons] at hbd; exact hbd) hwf.2
      refine ⟨rs', ?_⟩
      rw [hrec]
      have hspec : specBody c (optOf inR rs0) (BodyLine.del s :: rest)
          = ⟨pendingClose (optOf inR rs0) c ++ (specBody c none rest).ranges,
              (specBody c none rest).cursor, (specBody c none rest).pending⟩ := by
        cases hir : inR <;> simp [specBody, optOf, pendingClose]
      rw [hspec]
      rw [update_update]
      simp [optOf]

/-! ### The parser fold over rendered hunks -/

theorem flushRange_eq (f : String) (c rs0 : Int) (inR : Bool) (m : String → List lineRange)
    (hf : f ≠ "") (hcond : inR = true → 1 ≤ rs0 ∧ 1 ≤ c ∧ c < 2 ^ 63) :
    flushRange ⟨f, c, rs0, inR, m⟩
      = ⟨f, c, rs0, false,
          fun g => if g = f then m g ++ pendingClose (optOf inR rs0) c else m g⟩ := by
  cases hir : inR
  · simp [flushRange, optOf, pendingClose, update_nil, hir]
  · obtain ⟨h1, h2, h3⟩ := hcond hir
    simp only [flushRange]
    rw [if_pos ⟨trivial, hf, by omega⟩]
    have hw : wrap64 (c - 1) = c - 1 := wrap64_eq_self (by omega) (by omega)
    simp [optOf, pendingClose, hw]

theorem consumedCount_le_length (body : List BodyLine) :
    consumedCount body ≤ body.length := by
  unfold consumedCount
  exact List.length_filter_le _ _

theorem foldHunkOne (h : Hunk) (hwf : Hunk.wf h = true) :
    ∀ (f : String) (c0 rs0 : Int) (inR : Bool) (m : String → List lineRange),
      f ≠ "" → (inR = true → 1 ≤ rs0 ∧ 1 ≤ c0 ∧ c0 < 2 ^ 63) →
      ∃ rs' : Int,
        (renderHunk h).foldl diffStep ⟨f, c0, rs0, inR, m⟩
          = ⟨f, (specBody (h.newStart : Int) none h.body).cursor,
              ((specBody (h.newStart : Int) none h.body).pending).getD rs',
              ((specBody (h.newStart : Int) none h.body).pending).isSome,
              fun g => if g = f
                then m g ++ (pendingClose (optOf inR rs0) c0
                              ++ (specBody (h.newStart : Int) none h.body).ranges)
                else m g⟩ := by
  intro f c0 rs0 inR m hf hcond
  have hwf' := hwf
  unfold Hunk.wf at hwf'
  simp only [Bool.and_eq_true, beq_iff_eq, decide_eq_true_eq] at hwf'
  obtain ⟨⟨⟨⟨hns1, hbodywf⟩, _⟩, _⟩, hbound⟩ := hwf'
  have hns63 : h.newStart < 2 ^ 63 := by
    unfold hunkConsumedEnd at hbound
    omega
  have hstep : diffStep ⟨f, c0, rs0, inR, m⟩ (renderHunkHeader h)
      = ⟨f, (h.newStart : Int), rs0, false,
          fun g => if g = f then m g ++ pendingClose (optOf inR rs0) c0 else m g⟩ := by
    unfold diffStep
    rw [if_neg (by simp [sw_hunk_hdr h]), if_pos (sw_hunk_at h),
      flushRange_eq f c0 rs0 inR m hf hcond,
      parseHunkStart_render h hns63,
      if_pos (by exact_mod_cast hns1)]
  obtain ⟨rs', hfb⟩ := foldBody h.body f (h.newStart : Int) rs0 false
    (fun g => if g = f then m g ++ pendingClose (optOf inR rs0) c0 else m g)
    hf (by exact_mod_cast hns1) (by simp)
    (by unfold hunkConsumedEnd at hbound; push_cast; omega)
    hbodywf
  refine ⟨rs', ?_⟩
  show ((renderHunkHeader h :: h.body.map renderBodyLine).foldl diffStep
      ⟨f, c0, rs0, inR, m⟩) = _
  rw [List.foldl_cons, hstep, hfb]
  have hopt : optOf false rs0 = none := rfl
  rw [hopt, update_update]

theorem optOf_isSome_getD (p : Option Int) (d : Int) :
    optOf p.isSome (p.getD d) = p := by
  cases p <;> rfl

theorem hunksWalk_last (hs : List Hunk) (hne : hs ≠ []) :
    ∃ hL, hs.getLast? = some hL
      ∧ (hunksWalk hs).2 = specBody (hL.newStart : Int) none hL.body := by
  induction hs with
  | nil => exact absurd rfl hne
  | cons h t ih =>
    cases t with
    | nil => exact ⟨h, rfl, rfl⟩
    | cons h2 t2 =>
      obtain ⟨hL, h1, h2'⟩ := ih (by simp)
      exact ⟨hL, by rw [List.getLast?_cons_cons]; exact h1, h2'⟩

theorem specHunksRanges_walk_false (hs : List Hunk) (hne : hs ≠ []) :
    specHunksRanges hs false
      = (hunksWalk hs).1 ++ ((hunksWalk hs).2.ranges
          ++ pendingClose (hunksWalk hs).2.pending (hunksWalk hs).2.cursor) := by
  induction hs with
  | nil => exact absurd rfl hne
  | cons h t ih =>
    cases t with
    | nil => rfl
    | cons h2 t2 =>
      show specHunkClosed h ++ specHunksRanges (h2 :: t2) false = _
      rw [ih (by simp)]
      simp [hunksWalk, List.append_assoc]

theorem specHunksRanges_walk_true (hs : List Hunk) (hne : hs ≠ []) :
    specHunksRanges hs true
      = (hunksWalk hs).1 ++ ((hunksWalk hs).2.ranges
          ++ [⟨((hunksWalk hs).2.pending).getD (hunksWalk hs).2.cursor,
               (hunksWalk hs).2.cursor + 1⟩]) := by
  induction hs with
  | nil => exact absurd rfl hne
  | cons h t ih =>
    cases t with
    | nil => rfl
    | cons h2 t2 =>
      show specHunkClosed h ++ specHunksRanges (h2 :: t2) true = _
      rw [ih (by simp)]
      simp [hunksWalk, List.append_assoc]

theorem foldHunks (hs : List Hunk) (hne : hs ≠ []) :
    ∀ (f : String) (c0 rs0 : Int) (inR : Bool) (m : String → List lineRange),
      f ≠ "" → hs.all Hunk.wf = true →
      (inR = true → 1 ≤ rs0 ∧ 1 ≤ c0 ∧ c0 < 2 ^ 63) →
      ∃ rs' : Int,
        (hs.flatMap renderHunk).foldl diffStep ⟨f, c0, rs0, inR, m⟩
          = ⟨f, (hunksWalk hs).2.cursor,
              ((hunksWalk hs).2.pending).getD rs',
              ((hunksWalk hs).2.pending).isSome,
              fun g => if g = f
                then m g ++ (pendingClose (optOf inR rs0) c0
                              ++ ((hunksWalk hs).1 ++ (hunksWalk hs).2.ranges))
                else m g⟩ := by
  induction hs with
  | nil => exact absurd rfl hne
  | cons h t ih =>
    intro f c0 rs0 inR m hf hwf hcond
    rw [List.all_cons, Bool.and_eq_true] at hwf
    cases t with
    | nil =>
      obtain ⟨rs', h1⟩ := foldHunkOne h hwf.1 f c0 rs0 inR m hf hcond
      refine ⟨rs', ?_⟩
      show (renderHunk h ++ []).foldl diffStep _ = _
      rw [List.append_nil, h1]
      rfl
    | cons h2 t2 =>
      obtain ⟨rs1, h1⟩ := foldHunkOne h hwf.1 f c0 rs0 inR m hf hcond
      have hwfh := hwf.1
      unfold Hunk.wf at hwfh
      simp only [Bool.and_eq_true, beq_iff_eq, decide_eq_true_eq] at hwfh
      obtain ⟨⟨⟨⟨hns1, _⟩, _⟩, _⟩, hbound⟩ := hwfh
      have hcursor : (specBody (h.newStart : Int) none h.body).cursor
          = (h.newStart : Int) + (consumedCount h.body : Int) :=
        specBody_cursor h.body _ _
      have hpend : ∀ s, (specBody (h.newStart : Int) none h.body).pending = some s
          → 1 ≤ s :=
        specBody_pending_ge h.body _ _ (by exact_mod_cast hns1) (by simp)
      obtain ⟨rs', h2'⟩ := ih (by simp) f
        (specBody (h.newStart : Int) none h.body).cursor
        (((specBody (h.newStart : Int) none h.body).pending).getD rs1)
        ((specBody (h.newStart : Int) none h.body).pending).isSome
        (fun g => if g = f
          then m g ++ (pendingClose (optOf inR rs0) c0
                        ++ (specBody (h.newStart : Int) none h.body).ranges)
          else m g)
        hf hwf.2 (by
          intro hsome
          refine ⟨?_, ?_, ?_⟩
          · cases hp : (specBody (h.newStart : Int) none h.body).pending with
            | none => rw [hp] at hsome; simp at hsome
            | some s =>
              simp only [Option.getD_some]
              exact hpend s hp
          · rw [hcursor]
            have : 0 ≤ (consumedCount h.body : Int) := by positivity
            omega
          · rw [hcursor]
            unfold hunkConsumedEnd at hbound
            push_cast
            omega)
      refine ⟨rs', ?_⟩
      show ((renderHunk h ++ (h2 :: t2).flatMap renderHunk).foldl diffStep _) = _
      rw [List.foldl_append, h1, h2', optOf_isSome_getD, update_update]
      have hwalk : hunksWalk (h :: h2 :: t2)
          = (specHunkClosed h ++ (hunksWalk (h2 :: t2)).1, (hunksWalk (h2 :: t2)).2) :=
        rfl
      rw [hwalk]
      have hcomp : pendingClose (optOf inR rs0) c0
            ++ (specBody (h.newStart : Int) none h.body).ranges
            ++ (pendingClose (specBody (h.newStart : Int) none h.body).pending
                  (specBody (h.newStart : Int) none h.body).cursor
                ++ ((hunksWalk (h2 :: t2)).1 ++ (hunksWalk (h2 :: t2)).2.ranges))
          = pendingClose (optOf inR rs0) c0
            ++ ((specHunkClosed h ++ (hunksWalk (h2 :: t2)).1)
                ++ (hunksWalk (h2 :: t2)).2.ranges) := by
        unfold specHunkClosed
        simp [List.append_assoc]
      rw [hcomp]

/-! ### The parser fold over a file section's metadata lines -/

theorem sw_dg_hdr (p : String) :
    strStartsWith ("diff --git a/" ++ p ++ " b/" ++ p) "+++ b/" = false := rfl

theorem sw_dg_at (p : String) :
    strStartsWith ("diff --git a/" ++ p ++ " b/" ++ p) "@@" = false := rfl

theorem sw_dg_plus (p : String) :
    strStartsWith ("diff --git a/" ++ p ++ " b/" ++ p) "+" = false := rfl

theorem sw_dg_space (p : String) :
    strStartsWith ("diff --git a/" ++ p ++ " b/" ++ p) " " = false := rfl

theorem sw_dg_dash (p : String) :
    strStartsWith ("diff --git a/" ++ p ++ " b/" ++ p) "-" = false := rfl

theorem sw_dg_bs (p : String) :
    strStartsWith ("diff --git a/" ++ p ++ " b/" ++ p) "\\" = false := rfl

theorem sw_old_hdr (p : String) : strStartsWith ("--- a/" ++ p) "+++ b/" = false := rfl

theorem sw_old_at (p : String) : strStartsWith ("--- a/" ++ p) "@@" = false := rfl

theorem sw_old_plus (p : String) : strStartsWith ("--- a/" ++ p) "+" = false := rfl

theorem sw_old_space (p : String) : strStartsWith ("--- a/" ++ p) " " = false := rfl

theorem sw_old_dash (p : String) : strStartsWith ("--- a/" ++ p) "-" = true := rfl

theorem diffStep_default (st : DiffParseState) (line : String)
    (h1 : strStartsWith line "+++ b/" = false) (h2 : strStartsWith line "@@" = false)
    (h3 : strStartsWith line "+" = false) (h4 : strStartsWith line " " = false)
    (h5 : strStartsWith line "-" = false) (h6 : strStartsWith line "\\" = false)
    (hf : st.currentFile ≠ "") (hc : st.currentLine > 0) :
    diffStep st line = consumeLine st := by
  unfold diffStep
  rw [if_neg (by simp [h1]), if_neg (by simp [h2]), if_pos ⟨hf, hc⟩,
    if_neg (by simp [h3, h4]), if_neg (by simp [h5]), if_neg (by simp [h6])]

theorem diffStep_dash (st : DiffParseState) (line : String)
    (h1 : strStartsWith line "+++ b/" = false) (h2 : strStartsWith line "@@" = false)
    (h3 : strStartsWith line "+" = false) (h4 : strStartsWith line " " = false)
    (h5 : strStartsWith line "-" = true)
    (hf : st.currentFile ≠ "") (hc : st.currentLine > 0) :
    diffStep st line = flushRange st := by
  unfold diffStep
  rw [if_neg (by simp [h1]), if_neg (by simp [h2]), if_pos ⟨hf, hc⟩,
    if_neg (by simp [h3, h4]), if_pos h5]

theorem diffStep_skip (st : DiffParseState) (line : String)
    (h1 : strStartsWith line "+++ b/" = false) (h2 : strStartsWith line "@@" = false)
    (hg : ¬(st.currentFile ≠ "" ∧ st.currentLine > 0)) :
    diffStep st line = st := by
  unfold diffStep
  rw [if_neg (by simp [h1]), if_neg (by simp [h2]), if_neg hg]

theorem flushRange_noop (f : String) (c rs : Int) (m : String → List lineRange) :
    flushRange ⟨f, c, rs, false, m⟩ = ⟨f, c, rs, false, m⟩ := by
  simp [flushRange]

theorem diffStep_filehdr (st : DiffParseState) (p : String) :
    diffStep st ("+++ b/" ++ p)
      = { flushRange st with currentFile := p, currentLine := 0 } := by
  unfold diffStep
  rw [if_pos (sw_hdr_hdr p), trim_hdr p]

theorem foldMeta_tracking (p prev : String) (e rs0 : Int) (pd : Bool)
    (m : String → List lineRange)
    (hprev : prev ≠ "") (he1 : 1 ≤ e) (he2 : e + 2 < 2 ^ 63)
    (hpd : pd = true → 1 ≤ rs0) :
    [("diff --git a/" ++ p ++ " b/" ++ p), "index 1111111..2222222 100644",
     ("--- a/" ++ p), ("+++ b/" ++ p)].foldl diffStep ⟨prev, e, rs0, pd, m⟩
      = ⟨p, 0, (optOf pd rs0).getD e, false,
          fun g => if g = prev then m g ++ [⟨(optOf pd rs0).getD e, e + 1⟩] else m g⟩ := by
  have hw1 : wrap64 (e + 1) = e + 1 := wrap64_eq_self (by omega) (by omega)
  have hw2 : wrap64 (e + 1 + 1) = e + 1 + 1 := wrap64_eq_self (by omega) (by omega)
  have hs1 : diffStep ⟨prev, e, rs0, pd, m⟩ ("diff --git a/" ++ p ++ " b/" ++ p)
      = ⟨prev, e + 1, (optOf pd rs0).getD e, true, m⟩ := by
    rw [diffStep_default _ _ (sw_dg_hdr p) (sw_dg_at p) (sw_dg_plus p)
      (sw_dg_space p) (sw_dg_dash p) (sw_dg_bs p) hprev (by show (0 : Int) < e; omega)]
    cases hp : pd <;> simp [consumeLine, optOf, hw1]
  have hs2 : diffStep ⟨prev, e + 1, (optOf pd rs0).getD e, true, m⟩
        "index 1111111..2222222 100644"
      = ⟨prev, e + 1 + 1, (optOf pd rs0).getD e, true, m⟩ := by
    rw [diffStep_default ⟨prev, e + 1, (optOf pd rs0).getD e, true, m⟩
      "index 1111111..2222222 100644" rfl rfl rfl rfl rfl rfl hprev
      (by show (0 : Int) < e + 1; omega)]
    simp [consumeLine, hw2]
  have hrsx : 1 ≤ (optOf pd rs0).getD e := by
    cases hp : pd
    · simp [optOf]
      omega
    · simp [optOf]
      exact hpd hp
  have hs3 : diffStep ⟨prev, e + 1 + 1, (optOf pd rs0).getD e, true, m⟩ ("--- a/" ++ p)
      = ⟨prev, e + 1 + 1, (optOf pd rs0).getD e, false,
          fun g => if g = prev
            then m g ++ [⟨(optOf pd rs0).getD e, e + 1⟩] else m g⟩ := by
    rw [diffStep_dash _ _ (sw_old_hdr p) (sw_old_at p) (sw_old_plus p)
      (sw_old_space p) (sw_old_dash p) hprev (by show (0 : Int) < e + 1 + 1; omega)]
    rw [flushRange_eq prev (e + 1 + 1) ((optOf pd rs0).getD e) true m hprev
      (fun _ => ⟨hrsx, by omega, by omega⟩)]
    have hpc : pendingClose (optOf true ((optOf pd rs0).getD e)) (e + 1 + 1)
        = [⟨(optOf pd rs0).getD e, e + 1⟩] := by
      show [lineRange.mk ((optOf pd rs0).getD e) (e + 1 + 1 - 1)] = _
      have : e + 1 + 1 - 1 = e + 1 := by ring
      rw [this]
    rw [hpc]
  have hs4 : diffStep ⟨prev, e + 1 + 1, (optOf pd rs0).getD e, false,
        fun g => if g = prev then m g ++ [⟨(optOf pd rs0).getD e, e + 1⟩] else m g⟩
        ("+++ b/" ++ p)
      = ⟨p, 0, (optOf pd rs0).getD e, false,
          fun g => if g = prev then m g ++ [⟨(optOf pd rs0).getD e, e + 1⟩] else m g⟩ := by
    rw [diffStep_filehdr _ p, flushRange_noop]
  show List.foldl diffStep _ _ = _
  rw [List.foldl_cons, hs1, List.foldl_cons, hs2, List.foldl_cons, hs3,
    List.foldl_cons, hs4]
  rfl

theorem foldMeta_initial (p : String) (rs0 : Int) (m : String → List lineRange) :
    [("diff --git a/" ++ p ++ " b/" ++ p), "index 1111111..2222222 100644",
     ("--- a/" ++ p), ("+++ b/" ++ p)].foldl diffStep ⟨"", 0, rs0, false, m⟩
      = ⟨p, 0, rs0, false, m⟩ := by
  have hg : ¬(("" : String) ≠ "" ∧ (0 : Int) > 0) := by simp
  have hs1 := diffStep_skip ⟨"", 0, rs0, false, m⟩ _ (sw_dg_hdr p) (sw_dg_at p) hg
  have hs2 := diffStep_skip ⟨"", 0, rs0, false, m⟩ _
    (rfl : strStartsWith "index 1111111..2222222 100644" "+++ b/" = false)
    (rfl : strStartsWith "index 1111111..2222222 100644" "@@" = false) hg
  have hs3 := diffStep_skip ⟨"", 0, rs0, false, m⟩ _ (sw_old_hdr p) (sw_old_at p) hg
  have hs4 : diffStep ⟨"", 0, rs0, false, m⟩ ("+++ b/" ++ p)
      = ⟨p, 0, rs0, false, m⟩ := by
    rw [diffStep_filehdr _ p, flushRange_noop]
  show List.foldl diffStep _ _ = _
  rw [List.foldl_cons, hs1, List.foldl_cons, hs2, List.foldl_cons, hs3,
    List.foldl_cons, hs4]
  rfl

/-! ### The full parser characterization on rendered valid diffs -/

theorem contains_false_not_mem {t : List String} {p : String}
    (h : t.contains p = false) : p ∉ t := by
  intro hm
  unfold List.contains at h
  rw [List.elem_eq_true_of_mem hm] at h
  exact absurd h (by simp)

theorem specIndex_not_mem (ds : List FileDiff) (g : String)
    (h : g ∉ ds.map FileDiff.path) : specIndex ds g = [] := by
  induction ds with
  | nil => rfl
  | cons fd rest ih =>
    simp only [List.map_cons, List.mem_cons, not_or] at h
    show (if fd.path = g then _ else []) ++ specIndex rest g = []
    rw [if_neg (fun he => h.1 he.symm), ih h.2]
    rfl

theorem pathsDistinct_cons (p : String) (t : List String) :
    pathsDistinct (p :: t) = (!t.contains p && pathsDistinct t) := rfl

theorem foldFiles (ds : List FileDiff) :
    ∀ (prev : String) (e rs0 : Int) (pd : Bool) (m : String → List lineRange)
      (tracking : Bool),
      ds.all FileDiff.wf = true →
      pathsDistinct (ds.map FileDiff.path) = true →
      prev ∉ ds.map FileDiff.path →
      (tracking = true → prev ≠ "" ∧ 1 ≤ e ∧ e + 2 < 2 ^ 63 ∧ (pd = true → 1 ≤ rs0)) →
      (tracking = false → prev = "" ∧ e = 0 ∧ pd = false) →
      ∀ g, (flushRange ((ds.flatMap renderFile).foldl diffStep
              ⟨prev, e, rs0, pd, m⟩)).files g
        = m g ++ ((if tracking = true ∧ g = prev
                   then tailContribution (optOf pd rs0) e (!ds.isEmpty) else [])
              ++ specIndex ds g) := by
  induction ds with
  | nil =>
    intro prev e rs0 pd m tracking hwf hdist hmem htrack huntrack g
    show (flushRange ⟨prev, e, rs0, pd, m⟩).files g = _
    cases htr : tracking
    · obtain ⟨hp, he, hpd⟩ := huntrack htr
      subst hp
      subst he
      subst hpd
      rw [flushRange_noop]
      simp [specIndex]
    · obtain ⟨hp, he1, he2, hpd⟩ := htrack htr
      rw [flushRange_eq prev e rs0 pd m hp (fun h => ⟨hpd h, by omega, by omega⟩)]
      show (if g = prev then m g ++ pendingClose (optOf pd rs0) e else m g) = _
      by_cases hg : g = prev
      · rw [if_pos hg]
        simp [specIndex, tailContribution, hg]
      · rw [if_neg hg]
        simp [specIndex, hg]
  | cons fd rest ih =>
    intro prev e rs0 pd m tracking hwf hdist hmem htrack huntrack g
    rw [List.all_cons, Bool.and_eq_true] at hwf
    have hfdwf := hwf.1
    unfold FileDiff.wf at hfdwf
    simp only [Bool.and_eq_true] at hfdwf
    obtain ⟨⟨⟨⟨hA, hB⟩, hC⟩, hD⟩, hE⟩ := hfdwf
    have hpath : fd.path ≠ "" := by
      intro hh
      rw [hh] at hA
      simp at hA
    have hne : fd.hunks ≠ [] := by
      intro hh
      rw [hh] at hC
      simp at hC
    rw [List.map_cons, pathsDistinct_cons, Bool.and_eq_true] at hdist
    have hnotin : fd.path ∉ rest.map FileDiff.path :=
      contains_false_not_mem (by
        have := hdist.1
        rwa [Bool.not_eq_true'] at this)
    simp only [List.map_cons, List.mem_cons, not_or] at hmem
    obtain ⟨hprevfd, hprevrest⟩ := hmem
    -- the state and map after the four metadata lines
    have hmeta : ∃ (rsx : Int) (m1 : String → List lineRange),
        ([("diff --git a/" ++ fd.path ++ " b/" ++ fd.path),
          "index 1111111..2222222 100644",
          ("--- a/" ++ fd.path), ("+++ b/" ++ fd.path)].foldl diffStep
            ⟨prev, e, rs0, pd, m⟩)
          = ⟨fd.path, 0, rsx, false, m1⟩
        ∧ ∀ g', m1 g' = m g' ++ (if tracking = true ∧ g' = prev
              then tailContribution (optOf pd rs0) e true else []) := by
      cases htr : tracking
      · obtain ⟨hp, he, hpd⟩ := huntrack htr
        subst hp
        subst he
        subst hpd
        refine ⟨rs0, m, foldMeta_initial fd.path rs0 m, ?_⟩
        intro g'
        simp
      · obtain ⟨hp, he1, he2, hpd⟩ := htrack htr
        refine ⟨(optOf pd rs0).getD e, _,
          foldMeta_tracking fd.path prev e rs0 pd m hp he1 he2 hpd, ?_⟩
        intro g'
        by_cases hg' : g' = prev
        · simp [hg', tailContribution]
        · simp [hg']
    obtain ⟨rsx, m1, hmetaeq, hm1⟩ := hmeta
    -- fold the hunks of fd
    obtain ⟨rs', hh⟩ := foldHunks fd.hunks hne fd.path 0 rsx false m1 hpath hD (by simp)
    -- facts about the last hunk
    obtain ⟨hL, hlastq, hWq⟩ := hunksWalk_last fd.hunks hne
    have hLmem : hL ∈ fd.hunks := mem_of_getLastOpt hlastq
    have hLwf : Hunk.wf hL = true := List.all_eq_true.mp hD hL hLmem
    have hLcomp := hLwf
    unfold Hunk.wf at hLcomp
    simp only [Bool.and_eq_true, decide_eq_true_eq] at hLcomp
    obtain ⟨⟨⟨⟨hLns, _⟩, _⟩, _⟩, hLbound⟩ := hLcomp
    have hcur : (hunksWalk fd.hunks).2.cursor
        = (hL.newStart : Int) + (consumedCount hL.body : Int) := by
      rw [hWq]
      exact specBody_cursor hL.body _ _
    have hpendge : ∀ s, (hunksWalk fd.hunks).2.pending = some s → 1 ≤ s := by
      rw [hWq]
      exact specBody_pending_ge hL.body _ _ (by exact_mod_cast hLns) (by simp)
    -- the tail fold over the remaining files via the induction hypothesis
    have hIH := ih fd.path ((hunksWalk fd.hunks).2.cursor)
      (((hunksWalk fd.hunks).2.pending).getD rs')
      (((hunksWalk fd.hunks).2.pending).isSome)
      (fun g' => if g' = fd.path
        then m1 g' ++ (pendingClose (optOf false rsx) 0
                        ++ ((hunksWalk fd.hunks).1 ++ (hunksWalk fd.hunks).2.ranges))
        else m1 g')
      true hwf.2 hdist.2 hnotin
      (fun _ => ⟨hpath, by rw [hcur]; omega, by
          rw [hcur]
          unfold hunkConsumedEnd at hLbound
          push_cast
          omega, by
          intro hsome
          cases hp : (hunksWalk fd.hunks).2.pending with
          | none => rw [hp] at hsome; simp at hsome
          | some s => simp only [Option.getD_some]; exact hpendge s hp⟩)
      (fun h => by simp at h)
    -- assemble
    show (flushRange (((renderFile fd) ++ rest.flatMap renderFile).foldl diffStep
        ⟨prev, e, rs0, pd, m⟩)).files g = _
    rw [List.foldl_append]
    have hrf : (renderFile fd).foldl diffStep ⟨prev, e, rs0, pd, m⟩
        = ⟨fd.path, (hunksWalk fd.hunks).2.cursor,
            ((hunksWalk fd.hunks).2.pending).getD rs',
            ((hunksWalk fd.hunks).2.pending).isSome,
            fun g' => if g' = fd.path
              then m1 g' ++ (pendingClose (optOf false rsx) 0
                      ++ ((hunksWalk fd.hunks).1 ++ (hunksWalk fd.hunks).2.ranges))
              else m1 g'⟩ := by
      show ((([("diff --git a/" ++ fd.path ++ " b/" ++ fd.path),
          "index 1111111..2222222 100644",
          ("--- a/" ++ fd.path), ("+++ b/" ++ fd.path)])
            ++ fd.hunks.flatMap renderHunk).foldl diffStep ⟨prev, e, rs0, pd, m⟩) = _
      rw [List.foldl_append, hmetaeq, hh]
    rw [hrf, hIH g]
    have hpcnil : pendingClose (optOf false rsx) 0 = [] := rfl
    simp only [hpcnil, List.nil_append, true_and]
    by_cases hgfd : g = fd.path
    · have hgprev : ¬(tracking = true ∧ g = prev) := by
        rintro ⟨_, hgp⟩
        exact hprevfd (hgp ▸ hgfd)
      have hspecrest : specIndex rest g = [] := by
        rw [hgfd]
        exact specIndex_not_mem rest fd.path hnotin
      have hspecfull : specIndex (fd :: rest) g
          = specHunksRanges fd.hunks (!rest.isEmpty) := by
        show (if fd.path = g then specHunksRanges fd.hunks (!rest.isEmpty) else [])
            ++ specIndex rest g = _
        rw [if_pos hgfd.symm, hspecrest, List.append_nil]
      rw [if_pos hgfd, if_pos hgfd, hm1 g, if_neg hgprev, if_neg hgprev,
        optOf_isSome_getD, hspecfull, hspecrest]
      cases hrest : rest with
      | nil =>
        have hmore : (!([] : List FileDiff).isEmpty) = false := rfl
        rw [hmore, specHunksRanges_walk_false fd.hunks hne]
        simp [tailContribution, List.append_assoc]
      | cons r1 r2 =>
        have hmore : (!(r1 :: r2).isEmpty) = true := rfl
        rw [hmore, specHunksRanges_walk_true fd.hunks hne]
        simp [tailContribution, List.append_assoc]
    · have hspecfull : specIndex (fd :: rest) g = specIndex rest g := by
        show (if fd.path = g then specHunksRanges fd.hunks (!rest.isEmpty) else [])
            ++ specIndex rest g = _
        rw [if_neg (fun he => hgfd he.symm)]
        rfl
      rw [if_neg hgfd, if_neg hgfd, hm1 g, hspecfull]
      have hmore : (!(fd :: rest).isEmpty) = true := rfl
      rw [hmore]
      by_cases hgp : tracking = true ∧ g = prev
      · rw [if_pos hgp]
        simp [List.append_assoc]
      · rw [if_neg hgp]
        simp

/-- The parser output on a rendered well formed diff is exactly the
specification index. -/
theorem newDiffLinesList_spec (d : List FileDiff) (hv : validDiff d = true)
    (g : String) :
    (newDiffLinesList (renderLines d)).files g = specIndex d g := by
  unfold validDiff at hv
  rw [Bool.and_eq_true] at hv
  have hnomem : "" ∉ d.map FileDiff.path := by
    intro hmem
    rw [List.mem_map] at hmem
    obtain ⟨fd, hfd, hpath⟩ := hmem
    have hwffd := List.all_eq_true.mp hv.1 fd hfd
    unfold FileDiff.wf at hwffd
    simp only [Bool.and_eq_true] at hwffd
    rw [hpath] at hwffd
    simp at hwffd
  have := foldFiles d "" 0 0 false (fun _ => []) false hv.1 hv.2 hnomem
    (fun h => absurd h (by simp)) (fun _ => ⟨rfl, rfl, rfl⟩) g
  show (flushRange ((d.flatMap renderFile).foldl diffStep initDiffState)).files g = _
  rw [show initDiffState = ⟨"", 0, 0, false, fun _ => []⟩ from rfl, this]
  simp

theorem countP_pendingClose (p : Option Int) (c l : Int) :
    (pendingClose p c).countP (fun r => r.start ≤ l && l ≤ r.stop)
      = pendCount p c l := by
  cases p with
  | none => rfl
  | some s =>
    show List.countP (fun r => r.start ≤ l && l ≤ r.stop) [lineRange.mk s (c - 1)] = _
    simp only [List.countP_cons, List.countP_nil, pendCount]
    by_cases h : s ≤ l ∧ l ≤ c - 1
    · simp [h]
    · rw [if_neg h]
      rcases not_and_or.mp h with h1 | h1 <;> simp [h1]

theorem specBody_pending_bounds (body : List BodyLine) :
    ∀ (c : Int) (p : Option Int), 1 ≤ c →
      (∀ s, p = some s → 1 ≤ s ∧ s ≤ c) →
      ∀ s, (specBody c p body).pending = some s
        → 1 ≤ s ∧ s ≤ (specBody c p body).cursor := by
  induction body with
  | nil =>
    intro c p hc hp s hs
    obtain ⟨h1, h2⟩ := hp s hs
    exact ⟨h1, h2⟩
  | cons b rest ih =>
    intro c p hc hp s hs
    cases b with
    | add t =>
      refine ih (c + 1) (some (p.getD c)) (by omega) ?_ s hs
      intro u hu
      simp only [Option.some.injEq] at hu
      subst hu
      cases hpv : p with
      | none => simp; omega
      | some v =>
        obtain ⟨h1, h2⟩ := hp v hpv
        simp [hpv]
        omega
    | ctx t =>
      refine ih (c + 1) (some (p.getD c)) (by omega) ?_ s hs
      intro u hu
      simp only [Option.some.injEq] at hu
      subst hu
      cases hpv : p with
      | none => simp; omega
      | some v =>
        obtain ⟨h1, h2⟩ := hp v hpv
        simp [hpv]
        omega
    | del t =>
      exact ih c none hc (by simp) s hs

theorem specBody_cover (body : List BodyLine) :
    ∀ (c : Int) (p : Option Int) (l : Int),
      1 ≤ c → (∀ s, p = some s → 1 ≤ s ∧ s ≤ c) →
      ((specBody c p body).ranges).countP (fun r => r.start ≤ l && l ≤ r.stop)
          + pendCount (specBody c p body).pending (specBody c p body).cursor l
        = pendCount p c l
          + (if c ≤ l ∧ l < c + (consumedCount body : Int) then 1 else 0) := by
  induction body with
  | nil =>
    intro c p l hc hp
    have hno : ¬(c ≤ l ∧ l < c + (consumedCount ([] : List BodyLine) : Int)) := by
      simp only [consumedCount, List.filter_nil, List.length_nil, Nat.cast_zero]
      omega
    simp [specBody, hno]
  | cons b rest ih =>
    intro c p l hc hp
    cases b with
    | add t =>
      have hccons : consumedCount (BodyLine.add t :: rest) = consumedCount rest + 1 := by
        simp [consumedCount, BodyLine.consumes, List.filter_cons]
      have hnext : ∀ s, some (p.getD c) = some s → 1 ≤ s ∧ s ≤ c + 1 := by
        intro u hu
        simp only [Option.some.injEq] at hu
        subst hu
        cases hpv : p with
        | none => simp; omega
        | some v => obtain ⟨h1, h2⟩ := hp v hpv; simp [hpv]; omega
      have hIH := ih (c + 1) (some (p.getD c)) l (by omega) hnext
      show ((specBody (c + 1) (some (p.getD c)) rest).ranges).countP _
          + pendCount (specBody (c + 1) (some (p.getD c)) rest).pending
              (specBody (c + 1) (some (p.getD c)) rest).cursor l = _
      rw [hIH, hccons]
      cases hpv : p with
      | none =>
        simp only [hpv, Option.getD_none, pendCount]
        push_cast
        split_ifs <;> omega
      | some v =>
        obtain ⟨h1, h2⟩ := hp v hpv
        simp only [hpv, Option.getD_some, pendCount]
        push_cast
        split_ifs <;> omega
    | ctx t =>
      have hccons : consumedCount (BodyLine.ctx t :: rest) = consumedCount rest + 1 := by
        simp [consumedCount, BodyLine.consumes, List.filter_cons]
      have hnext : ∀ s, some (p.getD c) = some s → 1 ≤ s ∧ s ≤ c + 1 := by
        intro u hu
        simp only [Option.some.injEq] at hu
        subst hu
        cases hpv : p with
        | none => simp; omega
        | some v => obtain ⟨h1, h2⟩ := hp v hpv; simp [hpv]; omega
      have hIH := ih (c + 1) (some (p.getD c)) l (by omega) hnext
      show ((specBody (c + 1) (some (p.getD c)) rest).ranges).countP _
          + pendCount (specBody (c + 1) (some (p.getD c)) rest).pending
              (specBody (c + 1) (some (p.getD c)) rest).cursor l = _
      rw [hIH, hccons]
      cases hpv : p with
      | none =>
        simp only [hpv, Option.getD_none, pendCount]
        push_cast
        split_ifs <;> omega
      | some v =>
        obtain ⟨h1, h2⟩ := hp v hpv
        simp only [hpv, Option.getD_some, pendCount]
        push_cast
        split_ifs <;> omega
    | del t =>
      have hccons : consumedCount (BodyLine.del t :: rest) = consumedCount rest := by
        simp [consumedCount, BodyLine.consumes, List.filter_cons]
      have hIH := ih c none l hc (by simp)
      have hshape : specBody c p (BodyLine.del t :: rest)
          = ⟨pendingClose p c ++ (specBody c none rest).ranges,
              (specBody c none rest).cursor, (specBody c none rest).pending⟩ := by
        cases p <;> rfl
      rw [hshape]
      show (pendingClose p c ++ (specBody c none rest).ranges).countP _
          + pendCount (specBody c none rest).pending (specBody c none rest).cursor l = _
      rw [List.countP_append, countP_pendingClose, hccons]
      have hpc0 : pendCount none c l = 0 := rfl
      omega

theorem hunkConsumedEnd_cast (h : Hunk) :
    (hunkConsumedEnd h : Int) = (h.newStart : Int) + (consumedCount h.body : Int) := by
  unfold hunkConsumedEnd
  push_cast
  ring

theorem specHunkClosed_cover (h : Hunk) (hns : 1 ≤ h.newStart) (l : Int) :
    (specHunkClosed h).countP (fun r => r.start ≤ l && l ≤ r.stop)
      = if (h.newStart : Int) ≤ l ∧ l < (hunkConsumedEnd h : Int) then 1 else 0 := by
  unfold specHunkClosed
  rw [List.countP_append, countP_pendingClose]
  have hcov := specBody_cover h.body (h.newStart : Int) none l
    (by exact_mod_cast hns) (by simp)
  have hpc0 : pendCount none (h.newStart : Int) l = 0 := rfl
  rw [hpc0] at hcov
  rw [hunkConsumedEnd_cast]
  split_ifs at hcov ⊢ <;> omega

theorem consumedCount_cast_nonneg (body : List BodyLine) :
    0 ≤ (consumedCount body : Int) := by
  positivity

theorem specHunkPadded_cover (h : Hunk) (hns : 1 ≤ h.newStart) (l : Int) :
    (specHunkPadded h).countP (fun r => r.start ≤ l && l ≤ r.stop)
      = if (h.newStart : Int) ≤ l ∧ l < (hunkConsumedEnd h : Int) + 2 then 1 else 0 := by
  unfold specHunkPadded
  rw [List.countP_append]
  have hcov := specBody_cover h.body (h.newStart : Int) none l
    (by exact_mod_cast hns) (by simp)
  have hpc0 : pendCount none (h.newStart : Int) l = 0 := rfl
  rw [hpc0] at hcov
  have hcur := specBody_cursor h.body (h.newStart : Int) none
  have hcc := consumedCount_cast_nonneg h.body
  have hone : ∀ (a b : Int),
      List.countP (fun r => r.start ≤ l && l ≤ r.stop) [lineRange.mk a b]
        = if a ≤ l ∧ l ≤ b then 1 else 0 := by
    intro a b
    simp only [List.countP_cons, List.countP_nil]
    by_cases hab : a ≤ l ∧ l ≤ b
    · simp [hab]
    · rw [if_neg hab]
      rcases not_and_or.mp hab with h1 | h1 <;> simp [h1]
  rw [hunkConsumedEnd_cast]
  cases hp : (specBody (h.newStart : Int) none h.body).pending with
  | none =>
    rw [hp] at hcov
    have hpc : pendCount none (specBody (h.newStart : Int) none h.body).cursor l = 0 := rfl
    rw [hpc] at hcov
    rw [hone]
    simp only [Option.getD_none]
    rw [hcur]
    split_ifs at hcov ⊢ <;> omega
  | some s =>
    obtain ⟨hs1, hs2⟩ := specBody_pending_bounds h.body (h.newStart : Int) none
      (by exact_mod_cast hns) (by simp) s hp
    rw [hp] at hcov
    have hpc : pendCount (some s) (specBody (h.newStart : Int) none h.body).cursor l
        = if s ≤ l ∧ l ≤ (specBody (h.newStart : Int) none h.body).cursor - 1
          then 1 else 0 := rfl
    rw [hpc] at hcov
    rw [hone]
    simp only [Option.getD_some]
    rw [hcur] at hcov hs2 ⊢
    split_ifs at hcov ⊢ <;> omega

theorem hunksOrdered_cons_facts (h : Hunk) (t : List Hunk)
    (hord : hunksOrdered (h :: t) = true) :
    hunksOrdered t = true ∧ ∀ h2 ∈ t, hunkConsumedEnd h ≤ h2.newStart := by
  induction t generalizing h with
  | nil => exact ⟨rfl, by simp⟩
  | cons b t2 ih =>
    simp only [hunksOrdered, Bool.and_eq_true, decide_eq_true_eq] at hord
    obtain ⟨h12, hord2⟩ := hord
    obtain ⟨_, hrest⟩ := ih b hord2
    refine ⟨hord2, ?_⟩
    intro h2 hmem
    rcases List.mem_cons.mp hmem with rfl | hmem2
    · exact h12
    · have h1 := hrest h2 hmem2
      have h2b : b.newStart ≤ hunkConsumedEnd b := by unfold hunkConsumedEnd; omega
      omega

theorem hunkConsumedEnd_le_last (hs : List Hunk) :
    hunksOrdered hs = true → ∀ h ∈ hs, ∀ hl, hs.getLast? = some hl →
      hunkConsumedEnd h ≤ hunkConsumedEnd hl := by
  induction hs with
  | nil => intro _ h hm; exact absurd hm (by simp)
  | cons a t ih =>
    intro hord h hm hl hlast
    obtain ⟨hordt, hbelow⟩ := hunksOrdered_cons_facts a t hord
    cases t with
    | nil =>
      rcases List.mem_cons.mp hm with rfl | hm2
      · simp only [List.getLast?_singleton, Option.some.injEq] at hlast
        rw [hlast]
      · exact absurd hm2 (by simp)
    | cons b t2 =>
      rw [List.getLast?_cons_cons] at hlast
      rcases List.mem_cons.mp hm with rfl | hm2
      · have hlm : hl ∈ b :: t2 := mem_of_getLastOpt hlast
        have h1 := hbelow hl hlm
        have h2 : hl.newStart ≤ hunkConsumedEnd hl := by unfold hunkConsumedEnd; omega
        omega
      · exact ih hordt h hm2 hl hlast

theorem specHunksRanges_cover (hs : List Hunk) :
    hs.all Hunk.wf = true → hunksOrdered hs = true → ∀ (hasNext : Bool) (l : Int),
      (specHunksRanges hs hasNext).countP (fun r => r.start ≤ l && l ≤ r.stop)
        = (if anySpanB hs l then 1 else 0)
          + (if hasNext && padLastB hs l then 1 else 0) := by
  induction hs with
  | nil =>
    intro _ _ hasNext l
    simp [specHunksRanges, anySpanB, padLastB]
  | cons h t ih =>
    intro hwf hord hasNext l
    have hwf2 : Hunk.wf h = true ∧ t.all Hunk.wf = true := by simpa using hwf
    have hns1 : 1 ≤ h.newStart := by
      have hw := hwf2.1
      simp only [Hunk.wf, Bool.and_eq_true, decide_eq_true_eq] at hw
      exact hw.1.1.1.1
    obtain ⟨hordt, hbelow⟩ := hunksOrdered_cons_facts h t hord
    have hspan1 : anySpanB [h] l
        = ((h.newStart : Int) ≤ l && l < (hunkConsumedEnd h : Int)) := by
      simp [anySpanB]
    cases t with
    | nil =>
      cases hasNext with
      | false =>
        show (specHunkClosed h).countP _ = _
        rw [specHunkClosed_cover h hns1 l, hspan1]
        simp only [Bool.false_and, if_neg (by simp : ¬(false = true))]
        by_cases hc : (h.newStart : Int) ≤ l ∧ l < (hunkConsumedEnd h : Int)
        · rw [if_pos hc, if_pos (by simpa using hc)]
        · rw [if_neg hc, if_neg (by simpa using hc)]
      | true =>
        show (specHunkPadded h).countP _ = _
        rw [specHunkPadded_cover h hns1 l, hspan1]
        have hpad1 : padLastB [h] l
            = ((hunkConsumedEnd h : Int) ≤ l && l ≤ (hunkConsumedEnd h : Int) + 1) := by
          simp [padLastB]
        rw [hpad1]
        have hns : (h.newStart : Int) ≤ (hunkConsumedEnd h : Int) := by
          unfold hunkConsumedEnd
          push_cast
          omega
        simp only [Bool.true_and, Bool.and_eq_true, decide_eq_true_eq]
        split_ifs with h1 h2 h3 h2 h3 <;> omega
    | cons b t2 =>
      show (specHunkClosed h ++ specHunksRanges (b :: t2) hasNext).countP _ = _
      rw [List.countP_append, specHunkClosed_cover h hns1 l,
        ih hwf2.2 hordt hasNext l]
      have hsplit : anySpanB (h :: b :: t2) l
          = (((h.newStart : Int) ≤ l && l < (hunkConsumedEnd h : Int))
              || anySpanB (b :: t2) l) := by
        simp [anySpanB]
      have hpadsplit : padLastB (h :: b :: t2) l = padLastB (b :: t2) l := by
        unfold padLastB
        rw [List.getLast?_cons_cons]
      rw [hsplit, hpadsplit]
      by_cases hc : (h.newStart : Int) ≤ l ∧ l < (hunkConsumedEnd h : Int)
      · have hrest0 : anySpanB (b :: t2) l = false := by
          simp only [anySpanB, List.any_eq_false, Bool.and_eq_true, not_and,
            decide_eq_true_eq]
          intro h2 hmem hle
          have := hbelow h2 hmem
          omega
        have hpadrest0 : padLastB (b :: t2) l = false := by
          unfold padLastB
          cases hlast : (b :: t2).getLast? with
          | none => rfl
          | some hl =>
            have hlm : hl ∈ b :: t2 := mem_of_getLastOpt hlast
            have h1 := hbelow hl hlm
            have h2 : hl.newStart ≤ hunkConsumedEnd hl := by
              unfold hunkConsumedEnd; omega
            simp only [Bool.and_eq_false_iff, decide_eq_false_iff_not, not_le]
            left
            omega
        rw [if_pos hc, hrest0, hpadrest0]
        simp [hc.1, hc.2]
      · rw [if_neg hc]
        have hleft : (((h.newStart : Int) ≤ l && l < (hunkConsumedEnd h : Int))
            || anySpanB (b :: t2) l) = anySpanB (b :: t2) l := by
          have : ((h.newStart : Int) ≤ l && l < (hunkConsumedEnd h : Int)) = false := by
            cases not_and_or.mp hc with
            | inl h1 => simp [h1]
            | inr h1 => simp [h1]
          rw [this, Bool.false_or]
        rw [hleft]
        omega

/-! ### Coverage of the whole index -/

theorem specConsumedB_cons (fd : FileDiff) (rest : List FileDiff)
    (f : String) (l : Int) :
    specConsumedB (fd :: rest) f l
      = ((fd.path == f && anySpanB fd.hunks l) || specConsumedB rest f l) := rfl

theorem specPadB_cons2 (fd fd2 : FileDiff) (rest : List FileDiff)
    (f : String) (l : Int) :
    specPadB (fd :: fd2 :: rest) f l
      = ((fd.path == f && padLastB fd.hunks l) || specPadB (fd2 :: rest) f l) := rfl

theorem specConsumedB_not_mem (d : List FileDiff) (f : String) (l : Int)
    (h : f ∉ d.map FileDiff.path) : specConsumedB d f l = false := by
  simp only [specConsumedB, List.any_eq_false]
  intro fd hfd
  have hne : fd.path ≠ f := by
    intro he
    apply h
    rw [← he]
    exact List.mem_map_of_mem _ hfd
  simp [hne]

theorem specPadB_not_mem (d : List FileDiff) (f : String) (l : Int) :
    f ∉ d.map FileDiff.path → specPadB d f l = false := by
  induction d with
  | nil => intro _; rfl
  | cons fd rest ih =>
    intro h
    simp only [List.map_cons, List.mem_cons, not_or] at h
    cases rest with
    | nil => rfl
    | cons fd2 rest2 =>
      rw [specPadB_cons2]
      have hne : (fd.path == f) = false := by
        simp only [beq_eq_false_iff_ne, ne_eq]
        exact fun he => h.1 he.symm
      rw [hne, Bool.false_and, Bool.false_or]
      exact ih h.2

theorem validDiff_cons (fd : FileDiff) (rest : List FileDiff)
    (hv : validDiff (fd :: rest) = true) :
    FileDiff.wf fd = true ∧ validDiff rest = true
      ∧ fd.path ∉ rest.map FileDiff.path := by
  unfold validDiff at hv ⊢
  simp only [List.all_cons, List.map_cons, pathsDistinct_cons,
    Bool.and_eq_true] at hv
  obtain ⟨⟨h1, h2⟩, h3, h4⟩ := hv
  exact ⟨h1, by simp [h2, h4], contains_false_not_mem (by simpa using h3)⟩

theorem FileDiff_wf_hunks (fd : FileDiff) (hwfd : FileDiff.wf fd = true) :
    fd.hunks.all Hunk.wf = true ∧ hunksOrdered fd.hunks = true := by
  unfold FileDiff.wf at hwfd
  simp only [Bool.and_eq_true] at hwfd
  exact ⟨hwfd.1.2, hwfd.2⟩

theorem specIndex_cover (d : List FileDiff) :
    validDiff d = true → ∀ (f : String) (l : Int),
      (specIndex d f).countP (fun r => r.start ≤ l && l ≤ r.stop)
        = (if specConsumedB d f l then 1 else 0)
          + (if specPadB d f l then 1 else 0) := by
  induction d with
  | nil =>
    intro _ f l
    simp [specIndex, specConsumedB, specPadB]
  | cons fd rest ih =>
    intro hv f l
    obtain ⟨hwfd, hvrest, hnotin⟩ := validDiff_cons fd rest hv
    obtain ⟨hfw, hford⟩ := FileDiff_wf_hunks fd hwfd
    show ((if fd.path = f then specHunksRanges fd.hunks (!rest.isEmpty) else [])
        ++ specIndex rest f).countP _ = _
    rw [List.countP_append, specConsumedB_cons]
    by_cases hp : fd.path = f
    · have hnotinf : f ∉ rest.map FileDiff.path := hp ▸ hnotin
      have hrestC : specConsumedB rest f l = false :=
        specConsumedB_not_mem rest f l hnotinf
      have hrestP : specPadB rest f l = false := specPadB_not_mem rest f l hnotinf
      have h1 : (fd.path == f) = true := by simp [hp]
      rw [if_pos hp, specIndex_not_mem rest f hnotinf,
        specHunksRanges_cover fd.hunks hfw hford, h1, hrestC]
      cases rest with
      | nil =>
        have h3 : specPadB [fd] f l = false := rfl
        rw [h3]
        simp
      | cons fd2 rest2 =>
        rw [specPadB_cons2, h1, hrestP]
        simp
    · have h1 : (fd.path == f) = false := by simp [hp]
      rw [if_neg hp, List.countP_nil, h1, Bool.false_and, Bool.false_or]
      cases rest with
      | nil => simp [specIndex, specConsumedB, specPadB]
      | cons fd2 rest2 =>
        rw [specPadB_cons2, h1, Bool.false_and, Bool.false_or, ih hvrest f l]
        simp

theorem consumed_pad_disjoint (d : List FileDiff) :
    validDiff d = true → ∀ (f : String) (l : Int),
      specConsumedB d f l = true → specPadB d f l = false := by
  induction d with
  | nil =>
    intro _ f l hc
    exact absurd hc (by simp [specConsumedB])
  | cons fd rest ih =>
    intro hv f l hc
    obtain ⟨hwfd, hvrest, hnotin⟩ := validDiff_cons fd rest hv
    obtain ⟨hfw, hford⟩ := FileDiff_wf_hunks fd hwfd
    rw [specConsumedB_cons] at hc
    by_cases hp : fd.path = f
    · have hnotinf : f ∉ rest.map FileDiff.path := hp ▸ hnotin
      have hrestC : specConsumedB rest f l = false :=
        specConsumedB_not_mem rest f l hnotinf
      have hrestP : specPadB rest f l = false := specPadB_not_mem rest f l hnotinf
      rw [hrestC, Bool.or_false] at hc
      have hspan : anySpanB fd.hunks l = true := by
        simp only [Bool.and_eq_true] at hc
        exact hc.2
      have hpadlast : padLastB fd.hunks l = false := by
        simp only [anySpanB, List.any_eq_true, Bool.and_eq_true,
          decide_eq_true_eq] at hspan
        obtain ⟨hk, hkmem, hk1, hk2⟩ := hspan
        unfold padLastB
        cases hlast : fd.hunks.getLast? with
        | none => rfl
        | some hl =>
          have hle := hunkConsumedEnd_le_last fd.hunks hford hk hkmem hl hlast
          have hno : ¬((hunkConsumedEnd hl : Int) ≤ l) := by omega
          simp [hno]
      cases rest with
      | nil => rfl
      | cons fd2 rest2 =>
        rw [specPadB_cons2, hpadlast, Bool.and_false, Bool.false_or]
        exact hrestP
    · have h1 : (fd.path == f) = false := by simp [hp]
      rw [h1, Bool.false_and, Bool.false_or] at hc
      cases rest with
      | nil => exact absurd hc (by simp [specConsumedB])
      | cons fd2 rest2 =>
        rw [specPadB_cons2, h1, Bool.false_and, Bool.false_or]
        exact ih hvrest f l hc

/-- C2: for every syntactically valid unified diff (a rendered well
formed diff structure), a new-file line consumed by a `+` or context
line of some hunk is covered by exactly one stored range of its file;
a deletion-position line that is neither consumed nor inside the
two-line inter-file metadata padding after a non-final file's last hunk
is covered by no range.  The original claim, which asserted that
deletion-only lines are never covered with no padding exception, is
refuted by claim_C2_cex. -/
theorem claim_C2 (s : String) (d : List FileDiff) (f : String) (l : Int)
    (hv : validDiff d = true) (hr : strSplitNl s = renderLines d) :
    (specConsumedB d f l = true → coverageCount (newDiffLines s) f l = 1)
    ∧ (specDelPosB d f l = true → specConsumedB d f l = false →
        specPadB d f l = false → coverageCount (newDiffLines s) f l = 0) := by
  have hfiles : (newDiffLines s).files f = specIndex d f := by
    show (newDiffLinesList (strSplitNl s)).files f = _
    rw [hr]
    exact newDiffLinesList_spec d hv f
  have hcov : coverageCount (newDiffLines s) f l
      = (if specConsumedB d f l then 1 else 0)
        + (if specPadB d f l then 1 else 0) := by
    unfold coverageCount
    rw [hfiles]
    exact specIndex_cover d hv f l
  constructor
  · intro hc
    have hpad := consumed_pad_disjoint d hv f l hc
    rw [hcov, hc, hpad]
    rfl
  · intro _ hc hpad
    rw [hcov, hc, hpad]
    rfl

set_option maxRecDepth 40000 in
/-- Witness for C2 on concrete diffs: in d0, line 1 of f1 is consumed by
its context line and covered exactly once; in the single-file diff d1,
the deletion-position line 2 of g1 is covered by no range. -/
theorem claim_C2_witness :
    validDiff d0 = true ∧ strSplitNl s0 = renderLines d0
    ∧ specConsumedB d0 "f1" 1 = true
    ∧ coverageCount (newDiffLines s0) "f1" 1 = 1
    ∧ validDiff d1 = true ∧ strSplitNl s1 = renderLines d1
    ∧ specDelPosB d1 "g1" 2 = true
    ∧ coverageCount (newDiffLines s1) "g1" 2 = 0 :=
  ⟨by decide, by decide, by decide,
    (claim_C2 s0 d0 "f1" 1 (by decide) (by decide)).1 (by decide),
    by decide, by decide, by decide,
    (claim_C2 s1 d1 "g1" 2 (by decide) (by decide)).2
      (by decide) (by decide) (by decide)⟩

set_option maxRecDepth 40000 in
/-- Counterexample to the original C2: in the valid two-file diff d0,
line 2 of f1 is a deletion position, is consumed by no `+` or context
line, yet is covered by a stored range (the inter-file metadata lines
extend the pending range past the hunk). -/
theorem claim_C2_cex :
    validDiff d0 = true ∧ strSplitNl s0 = renderLines d0
    ∧ specDelPosB d0 "f1" 2 = true ∧ specConsumedB d0 "f1" 2 = false
    ∧ coverageCount (newDiffLines s0) "f1" 2 ≠ 0 := by
  exact ⟨by decide, by decide, by decide, by decide, by decide⟩

set_option maxRecDepth 40000 in
/-- C9: there is a syntactically valid multi-file unified diff for which
contains reports true on a line occupied by no `+` or context line of
any hunk of that file: in d0, line 3 of f1 is neither consumed nor a
deletion position, yet the index built from the rendered diff contains
it, because the `diff --git` and `index` lines of f2 are consumed as
context lines while the cursor still tracks f1. -/
theorem claim_C9 :
    validDiff d0 = true ∧ strSplitNl s0 = renderLines d0
    ∧ (newDiffLines s0).contains "f1" 3 = true
    ∧ specConsumedB d0 "f1" 3 = false ∧ specDelPosB d0 "f1" 3 = false := by
  exact ⟨by decide, by decide, by decide, by decide, by decide⟩

theorem wrap64_range (x : Int) :
    -(2 ^ 63) ≤ wrap64 x ∧ wrap64 x ≤ 2 ^ 63 - 1 := by
  have h1 := Int.emod_nonneg (x + 2 ^ 63) (by norm_num : (2 ^ 64 : Int) ≠ 0)
  have h2 := Int.emod_lt_of_pos (x + 2 ^ 63) (by norm_num : (0 : Int) < 2 ^ 64)
  unfold wrap64
  omega

theorem parseDigitsGo_range (cs : List Char) :
    ∀ (i : Nat) (start : Int),
      -(2 ^ 63) ≤ start ∧ start ≤ 2 ^ 63 - 1 →
      -(2 ^ 63) ≤ parseDigitsGo cs i start
        ∧ parseDigitsGo cs i start ≤ 2 ^ 63 - 1 := by
  induction cs with
  | nil => intro i start h; exact h
  | cons c cs ih =>
    intro i start h
    simp only [parseDigitsGo]
    split_ifs with h1 h2
    · exact ih (i + 1) _ (wrap64_range _)
    · exact h
    · exact ih (i + 1) start h

theorem parseHunkStart_range (header : String) :
    -(2 ^ 63) ≤ parseHunkStart header ∧ parseHunkStart header ≤ 2 ^ 63 - 1 := by
  unfold parseHunkStart
  cases hdw : header.toList.dropWhile (fun c => c ≠ '+') with
  | nil => norm_num
  | cons c rest => exact parseDigitsGo_range rest 0 0 (by norm_num)

theorem flushRange_pres (st : DiffParseState) (hP : stateRangesOK st) :
    stateRangesOK (flushRange st) ∧ (flushRange st).inRange = false
      ∧ (flushRange st).currentLine = st.currentLine
      ∧ (flushRange st).currentFile = st.currentFile := by
  obtain ⟨hfiles, hcl, hir⟩ := hP
  unfold flushRange
  by_cases hc : st.inRange = true ∧ st.currentFile ≠ "" ∧ st.rangeStart > 0
  · rw [if_pos hc]
    obtain ⟨hrs1, hrs2, _, hdisj⟩ := hir hc.1
    refine ⟨⟨?_, hcl, ?_⟩, rfl, rfl, rfl⟩
    · intro f r hr
      dsimp only at hr
      by_cases hf : f = st.currentFile
      · rw [if_pos hf] at hr
        rcases List.mem_append.mp hr with hold | hnew
        · exact hfiles f r hold
        · have hr2 : r = ⟨st.rangeStart, wrap64 (st.currentLine - 1)⟩ := by
            simpa using hnew
          subst hr2
          refine ⟨?_, ?_⟩
          · show (1 : Int) ≤ st.rangeStart
            omega
          show st.rangeStart ≤ wrap64 (st.currentLine - 1)
          rcases hdisj with hlt | hwrap
          · rw [wrap64_eq_self (by omega) (by omega)]
            omega
          · rw [hwrap]
            have : wrap64 (-(2 ^ 63) - 1) = 2 ^ 63 - 1 := by unfold wrap64; omega
            rw [this]
            omega
      · rw [if_neg hf] at hr
        exact hfiles f r hr
    · intro hfalse
      exact absurd hfalse (by simp)
  · rw [if_neg hc]
    have hnoin : st.inRange = false := by
      cases hb : st.inRange with
      | false => rfl
      | true =>
        obtain ⟨h1, _, h3, _⟩ := hir hb
        exact absurd ⟨hb, h3, by omega⟩ hc
    exact ⟨⟨hfiles, hcl, hir⟩, hnoin, rfl, rfl⟩

theorem consumeLine_pres (st : DiffParseState) (hP : stateRangesOK st)
    (hf : st.currentFile ≠ "") (hl : st.currentLine > 0) :
    stateRangesOK (consumeLine st) := by
  obtain ⟨hfiles, hcl, hir⟩ := hP
  have hw := wrap64_range (st.currentLine + 1)
  have hdisj2 : wrap64 (st.currentLine + 1) = st.currentLine + 1
      ∨ wrap64 (st.currentLine + 1) = -(2 ^ 63) := by
    by_cases hh : st.currentLine + 1 ≤ 2 ^ 63 - 1
    · exact Or.inl (wrap64_eq_self (by omega) (by omega))
    · right
      have he : st.currentLine + 1 = 2 ^ 63 := by omega
      rw [he]
      unfold wrap64
      omega
  unfold consumeLine
  cases hb : st.inRange with
  | false =>
    rw [if_pos (show (!false) = true from rfl)]
    refine ⟨hfiles, hw, fun _ => ⟨?_, ?_, hf, ?_⟩⟩
    · show (1 : Int) ≤ st.currentLine
      omega
    · show st.currentLine ≤ 2 ^ 63 - 1
      omega
    · show st.currentLine + 1 ≤ wrap64 (st.currentLine + 1)
        ∨ wrap64 (st.currentLine + 1) = -(2 ^ 63)
      rcases hdisj2 with h | h
      · left
        omega
      · right
        exact h
  | true =>
    rw [if_neg (by simp)]
    obtain ⟨hrs1, hrs2, _, hdisjold⟩ := hir hb
    have hlt : st.rangeStart + 1 ≤ st.currentLine := by
      rcases hdisjold with h | h
      · exact h
      · omega
    refine ⟨hfiles, hw, fun _ => ⟨?_, ?_, hf, ?_⟩⟩
    · show (1 : Int) ≤ st.rangeStart
      omega
    · show st.rangeStart ≤ 2 ^ 63 - 1
      omega
    · show st.rangeStart + 1 ≤ wrap64 (st.currentLine + 1)
        ∨ wrap64 (st.currentLine + 1) = -(2 ^ 63)
      rcases hdisj2 with h | h
      · left
        omega
      · right
        exact h

theorem diffStep_pres (st : DiffParseState) (line : String)
    (hP : stateRangesOK st) : stateRangesOK (diffStep st line) := by
  obtain ⟨hQ, hF, _, _⟩ := flushRange_pres st hP
  unfold diffStep
  split_ifs with h1 h2 h3 h4 h5 h6
  · refine ⟨hQ.1, by norm_num, ?_⟩
    intro hir
    rw [show ({ flushRange st with
        currentFile := strTrimPre line "+++ b/",
        currentLine := 0 } : DiffParseState).inRange
      = (flushRange st).inRange from rfl, hF] at hir
    exact absurd hir (by simp)
  · refine ⟨hQ.1, ?_, ?_⟩
    · exact ⟨(parseHunkStart_range line).1, (parseHunkStart_range line).2⟩
    · intro hir
      rw [show ({ flushRange st with
          currentLine := parseHunkStart line } : DiffParseState).inRange
        = (flushRange st).inRange from rfl, hF] at hir
      exact absurd hir (by simp)
  · exact hQ
  · exact consumeLine_pres st hP h4.1 h4.2
  · exact hQ
  · exact hP
  · exact consumeLine_pres st hP h4.1 h4.2
  · exact hP

theorem foldl_diffStep_pres (ls : List String) :
    ∀ st, stateRangesOK st → stateRangesOK (ls.foldl diffStep st) := by
  induction ls with
  | nil => intro st h; exact h
  | cons a t ih => intro st h; exact ih _ (diffStep_pres st a h)

theorem initDiffState_OK : stateRangesOK initDiffState := by
  refine ⟨?_, by norm_num [initDiffState], ?_⟩
  · intro f r hr
    exact absurd hr (List.not_mem_nil r)
  · intro h
    exact Bool.noConfusion h

/-- C8: for every diff text, every range stored in the resulting index
is closed with stop at least start and start at least 1, for every file
of the mapping. -/
theorem claim_C8 (s : String) (f : String) (r : lineRange)
    (hr : r ∈ (newDiffLines s).files f) :
    1 ≤ r.start ∧ r.start ≤ r.stop := by
  have hP := foldl_diffStep_pres (strSplitNl s) initDiffState initDiffState_OK
  have hQ := (flushRange_pres _ hP).1
  exact hQ.1 f r hr

set_option maxRecDepth 40000 in
/-- Witness for C8: the range stored for f2 in the concrete diff s0 is
the closed range from 1 to 1. -/
theorem claim_C8_witness :
    (lineRange.mk 1 1 ∈ (newDiffLines s0).files "f2")
    ∧ 1 ≤ (lineRange.mk 1 1).start
    ∧ (lineRange.mk 1 1).start ≤ (lineRange.mk 1 1).stop :=
  ⟨by decide, (claim_C8 s0 "f2" (lineRange.mk 1 1) (by decide)).1,
    (claim_C8 s0 "f2" (lineRange.mk 1 1) (by decide)).2⟩

theorem postReviewPartition_fold (diffInfo : diffLines)
    (ss : List CodeSuggestion) :
    ∀ a1 a2,
      ss.foldl
        (fun acc s =>
          if diffInfo.contains s.file s.lineEnd
          then (acc.1 ++ [buildReviewComment s diffInfo], acc.2)
          else (acc.1, acc.2 ++ [s])) (a1, a2)
      = (a1 ++ (ss.filter (fun s => diffInfo.contains s.file s.lineEnd)).map
            (fun s => buildReviewComment s diffInfo),
         a2 ++ ss.filter (fun s => !(diffInfo.contains s.file s.lineEnd))) := by
  induction ss with
  | nil =>
    intro a1 a2
    simp
  | cons s t ih =>
    intro a1 a2
    rw [List.foldl_cons]
    by_cases hc : diffInfo.contains s.file s.lineEnd = true
    · rw [if_pos hc, ih]
      simp [List.filter_cons, hc]
    · have hc2 : diffInfo.contains s.file s.lineEnd = false := by
        cases h2 : diffInfo.contains s.file s.lineEnd
        · rfl
        · exact absurd h2 hc
      rw [if_neg hc, ih]
      simp [List.filter_cons, hc2]

theorem filter_length_partition {α : Type} (p : α → Bool) (l : List α) :
    (l.filter p).length + (l.filter (fun a => !p a)).length = l.length := by
  induction l with
  | nil => rfl
  | cons a t ih =>
    cases h : p a <;> simp [List.filter_cons, h] <;> omega

/-- C4: a suggestion is rendered as an inline comment exactly when the
diff index contains its file and end line, it lands in the fallback
list exactly when it does not, order is preserved in both parts, and
the inline and fallback counts sum to the number of suggestions
processed. -/
theorem claim_C4 (diffInfo : diffLines) (ss : List CodeSuggestion) :
    (postReviewPartition diffInfo ss).1
        = (ss.filter (fun s => diffInfo.contains s.file s.lineEnd)).map
            (fun s => buildReviewComment s diffInfo)
    ∧ (postReviewPartition diffInfo ss).2
        = ss.filter (fun s => !(diffInfo.contains s.file s.lineEnd))
    ∧ (postReviewPartition diffInfo ss).1.length
        + (postReviewPartition diffInfo ss).2.length = ss.length := by
  have h := postReviewPartition_fold diffInfo ss [] []
  have h1 : postReviewPartition diffInfo ss
      = ((ss.filter (fun s => diffInfo.contains s.file s.lineEnd)).map
            (fun s => buildReviewComment s diffInfo),
         ss.filter (fun s => !(diffInfo.contains s.file s.lineEnd))) := by
    unfold postReviewPartition
    rw [h]
    simp
  rw [h1]
  refine ⟨rfl, rfl, ?_⟩
  rw [List.length_map]
  exact filter_length_partition _ ss

/-- C7: the submitted review event is APPROVE exactly when the result is
approved, COMMENT exactly when it is not, and a request-changes event is
never produced for any input. -/
theorem claim_C7 (diff : String) (result : ReviewResult) :
    ((postReviewPayload diff result).event = "APPROVE"
        ↔ result.approved = true)
    ∧ ((postReviewPayload diff result).event = "COMMENT"
        ↔ result.approved = false)
    ∧ (postReviewPayload diff result).event ≠ "REQUEST_CHANGES" := by
  rw [show (postReviewPayload diff result).event
      = if result.approved then "APPROVE" else "COMMENT" from rfl]
  cases result.approved <;> decide

/-- C10: fix-text sanitization is asymmetric: the body of an inline
comment for a suggestion with a nonempty fix embeds
extractCodeFromSuggestion of the fix inside its suggestion block, while
the fallback entry for the same suggestion embeds the raw fix text
verbatim, so nested triple-backtick fences survive only in fallback
entries. -/
theorem claim_C10 (s : CodeSuggestion) (i : Nat) (diffInfo : diffLines)
    (hs : s.suggestion ≠ "") :
    (buildReviewComment s diffInfo).body
      = "**" ++ normalizedSeverity s ++ "**: " ++ s.message
        ++ "\n\n```suggestion\n" ++ extractCodeFromSuggestion s.suggestion
        ++ "\n```"
    ∧ fallbackEntry i s
      = "### " ++ natDecimal (i + 1) ++ ". `" ++ s.file ++ "` (lines "
        ++ intDecimal s.lineStart ++ "-" ++ intDecimal s.lineEnd ++ ") - "
        ++ normalizedSeverity s ++ "\n\n" ++ s.message
        ++ ("\n\n```suggestion\n" ++ s.suggestion ++ "\n```") ++ "\n\n" := by
  constructor
  · have hbody : (buildReviewComment s diffInfo).body = buildCommentBody s := by
      unfold buildReviewComment
      by_cases hc : s.lineStart ≠ s.lineEnd ∧ s.lineStart > 0
          ∧ diffInfo.contains s.file s.lineStart = true
      · rw [if_pos hc]
      · rw [if_neg hc]
    rw [hbody]
    unfold buildCommentBody
    rw [if_pos hs]
    simp [String.append_assoc]
  · unfold fallbackEntry
    rw [if_pos hs]

set_option maxRecDepth 40000 in
/-- Witness for C10: for a concrete fix containing a fenced go block,
the fallback entry keeps the nested fence while the inline comment body
has none. -/
theorem claim_C10_witness :
    cexSugg.suggestion ≠ ""
    ∧ ((buildReviewComment cexSugg (newDiffLines s0)).body
        = "**" ++ normalizedSeverity cexSugg ++ "**: " ++ cexSugg.message
          ++ "\n\n```suggestion\n"
          ++ extractCodeFromSuggestion cexSugg.suggestion ++ "\n```"
      ∧ fallbackEntry 0 cexSugg
        = "### " ++ natDecimal 1 ++ ". `" ++ cexSugg.file ++ "` (lines "
          ++ intDecimal cexSugg.lineStart ++ "-" ++ intDecimal cexSugg.lineEnd
          ++ ") - " ++ normalizedSeverity cexSugg ++ "\n\n" ++ cexSugg.message
          ++ ("\n\n```suggestion\n" ++ cexSugg.suggestion ++ "\n```") ++ "\n\n")
    ∧ strContains (fallbackEntry 0 cexSugg) "```go" = true
    ∧ strContains (buildReviewComment cexSugg (newDiffLines s0)).body "```go"
        = false :=
  ⟨by decide, claim_C10 cexSugg 0 (newDiffLines s0) (by decide),
    by decide, by decide⟩

theorem enumFrom_foldl_judge (m : Rat)
    (oracle : Nat → Except String Judgement) (ss : List CodeSuggestion) :
    ∀ (i : Nat) (acc : List JudgedSuggestion),
      (List.enumFrom i ss).foldl
        (fun acc p => acc ++ judgeOne (oracle p.1) m p.2) acc
      = acc ++ judgeList m oracle i ss := by
  induction ss with
  | nil =>
    intro i acc
    simp [judgeList]
  | cons s t ih =>
    intro i acc
    rw [show List.enumFrom i (s :: t) = (i, s) :: List.enumFrom (i + 1) t from rfl,
      List.foldl_cons, ih]
    show acc ++ judgeOne (oracle i) m s ++ judgeList m oracle (i + 1) t = _
    rw [List.append_assoc]
    rfl

theorem JudgeSuggestions_enabled (config : JudgeConfig)
    (oracle : Nat → Except String Judgement) (ss : List CodeSuggestion)
    (hen : config.enabled = true) (hne : ss ≠ []) :
    JudgeSuggestions config (.ok ()) oracle ss
      = .ok (judgeList config.minScore oracle 0 ss) := by
  unfold JudgeSuggestions
  have hcond : (!config.enabled || ss.isEmpty) = false := by
    rw [hen]
    cases ss with
    | nil => exact absurd rfl hne
    | cons a t => rfl
  rw [hcond]
  show Except.ok (ss.enum.foldl _ []) = _
  rw [show ss.enum = List.enumFrom 0 ss from rfl, enumFrom_foldl_judge]
  rfl

theorem judgeList_congr (m : Rat) (o o' : Nat → Except String Judgement)
    (ss : List CodeSuggestion) :
    ∀ i : Nat, (∀ j, i ≤ j → o' j = o j) →
      judgeList m o' i ss = judgeList m o i ss := by
  induction ss with
  | nil => intro i _; rfl
  | cons s t ih =>
    intro i h
    show judgeOne (o' i) m s ++ judgeList m o' (i + 1) t
      = judgeOne (o i) m s ++ judgeList m o (i + 1) t
    rw [h i (le_refl i), ih (i + 1) (fun j hj => h j (by omega))]

theorem judgeList_split (m : Rat) (o o' : Nat → Except String Judgement)
    (e : String) (ss : List CodeSuggestion) :
    ∀ (i k : Nat) (s : CodeSuggestion),
      ss.get? k = some s →
      o (i + k) = .error e →
      (∀ j, j ≠ i + k → o' j = o j) →
      ∃ pre post,
        judgeList m o i ss
          = pre ++ ⟨s, 1, "Judge evaluation failed", []⟩ :: post
        ∧ judgeList m o' i ss
          = pre ++ (judgeOne (o' (i + k)) m s ++ post) := by
  induction ss with
  | nil =>
    intro i k s hget
    exact absurd hget (by simp)
  | cons a t ih =>
    intro i k s hget herr hagree
    cases k with
    | zero =>
      have hsa : a = s := by simpa using hget
      subst hsa
      refine ⟨[], judgeList m o (i + 1) t, ?_, ?_⟩
      · show judgeOne (o i) m a ++ judgeList m o (i + 1) t = _
        rw [show o i = .error e from by simpa using herr]
        rfl
      · show judgeOne (o' i) m a ++ judgeList m o' (i + 1) t = _
        rw [judgeList_congr m o o' t (i + 1)
          (fun j hj => hagree j (by omega))]
        simp
    | succ k2 =>
      have hget2 : t.get? k2 = some s := by simpa using hget
      have herr2 : o ((i + 1) + k2) = .error e := by
        rw [show (i + 1) + k2 = i + (k2 + 1) from by omega]
        exact herr
      have hagree2 : ∀ j, j ≠ (i + 1) + k2 → o' j = o j := by
        intro j hj
        exact hagree j (by omega)
      obtain ⟨pre, post, h1, h2⟩ := ih (i + 1) k2 s hget2 herr2 hagree2
      refine ⟨judgeOne (o i) m a ++ pre, post, ?_, ?_⟩
      · show judgeOne (o i) m a ++ judgeList m o (i + 1) t = _
        rw [h1, List.append_assoc]
      · show judgeOne (o' i) m a ++ judgeList m o' (i + 1) t = _
        rw [h2, hagree i (by omega),
          show (i + 1) + k2 = i + (k2 + 1) from by omega, List.append_assoc]

/-- C6: with judging disabled or an empty input, every suggestion passes
through unchanged, in order and count, wrapped with score exactly 1.0
and empty reasoning, and no error is returned. -/
theorem claim_C6 (config : JudgeConfig) (createJudge : Except String Unit)
    (oracle : Nat → Except String Judgement)
    (suggestions : List CodeSuggestion)
    (h : config.enabled = false ∨ suggestions = []) :
    JudgeSuggestions config createJudge oracle suggestions
      = .ok (suggestions.map (fun s => ⟨s, 1, "", []⟩)) := by
  unfold JudgeSuggestions
  rcases h with h | h
  · rw [if_pos (by rw [h]; rfl)]
  · rw [if_pos (by rw [h]; simp)]

/-- Witness for C6: a disabled judge passes a one-element list through
with score 1.0 even though the oracle would fail. -/
theorem claim_C6_witness :
    ((⟨false, "m", 1 / 2⟩ : JudgeConfig).enabled = false
      ∨ ([cexSugg] : List CodeSuggestion) = [])
    ∧ JudgeSuggestions ⟨false, "m", 1 / 2⟩ (.ok ())
        (fun _ => .error "boom") [cexSugg]
      = .ok [⟨cexSugg, 1, "", []⟩] :=
  ⟨Or.inl rfl,
    claim_C6 ⟨false, "m", 1 / 2⟩ (.ok ()) (fun _ => .error "boom") [cexSugg]
      (Or.inl rfl)⟩

/-- C3: in enabled-judge mode, when the judge call for the k-th
suggestion fails, that suggestion is kept with score 1.0 and the
failure reasoning, the batch is not aborted, and every other
suggestion's outcome is untouched: an oracle differing only at k yields
the same prefix and suffix around position k's contribution. -/
theorem claim_C3 (config : JudgeConfig) (o o' : Nat → Except String Judgement)
    (ss : List CodeSuggestion) (k : Nat) (e : String) (s : CodeSuggestion)
    (hen : config.enabled = true) (hne : ss ≠ [])
    (hget : ss.get? k = some s)
    (herr : o k = .error e)
    (hagree : ∀ j, j ≠ k → o' j = o j) :
    ∃ pre post,
      JudgeSuggestions config (.ok ()) o ss
        = .ok (pre ++ ⟨s, 1, "Judge evaluation failed", []⟩ :: post)
      ∧ JudgeSuggestions config (.ok ()) o' ss
        = .ok (pre ++ (judgeOne (o' k) config.minScore s ++ post)) := by
  obtain ⟨pre, post, h1, h2⟩ := judgeList_split config.minScore o o' e ss 0 k s
    hget (by simpa using herr) (by simpa using hagree)
  rw [Nat.zero_add] at h2
  exact ⟨pre, post, by rw [JudgeSuggestions_enabled config o ss hen hne, h1],
    by rw [JudgeSuggestions_enabled config o' ss hen hne, h2]⟩

/-- Witness for C3: with one suggestion whose judge call fails, the
output keeps it with score 1.0 and failure reasoning; the repaired
oracle differs only in position 0's contribution. -/
theorem claim_C3_witness :
    ∃ pre post,
      JudgeSuggestions ⟨true, "m", 1 / 2⟩ (.ok ())
          (fun j => if j = 0 then .error "boom" else .ok ⟨1, "good", []⟩)
          [cexSugg]
        = .ok (pre ++ ⟨cexSugg, 1, "Judge evaluation failed", []⟩ :: post)
      ∧ JudgeSuggestions ⟨true, "m", 1 / 2⟩ (.ok ())
          (fun j => if j = 0 then .ok ⟨1, "fine", []⟩ else .ok ⟨1, "good", []⟩)
          [cexSugg]
        = .ok (pre ++ (judgeOne (.ok ⟨1, "fine", []⟩) (1 / 2 : Rat) cexSugg
            ++ post)) :=
  claim_C3 ⟨true, "m", 1 / 2⟩
    (fun j => if j = 0 then .error "boom" else .ok ⟨1, "good", []⟩)
    (fun j => if j = 0 then .ok ⟨1, "fine", []⟩ else .ok ⟨1, "good", []⟩)
    [cexSugg] 0 "boom" cexSugg rfl (by simp) rfl rfl
    (by intro j hj; simp [hj])
